import Mathlib

/-!
Verification of the GedcomMCP genealogy-name utilities
(`src/gedcom_mcp/gedcom_name_utils.py`).

Strings are modelled as `List Char`.  Python semantics are embedded
character by character:

* `isWS` is Python's `\s` / `str.strip` whitespace class (ASCII range);
* `pyStrip` is `str.strip()`, `splitWS` is `str.split()`;
* `searchSpan d` / `subSpan d` are `re.search`/`re.sub` for the patterns
  `"([^"]+)"` (with `d = '"'`) and `/([^/]+)/` (with `d = '/'`), using the
  standard leftmost, non-overlapping scan;
* `prefixMatch`, `titleMatch`, `suffixSearch` hand-compile the three
  anchored alternation regexes of the source, including the optional-dot
  backtracking, the `re.IGNORECASE` flag (ASCII case folding, matching
  `Char.toLower`), and `$` matching before a final newline;
* `parse_genealogy_name`, `normalize_name`, `find_name_variants` and
  `is_prefix_or_title` are the source functions;
* `format_gedcom_name` / `format_gedcom_name_from_string` are modelled from
  the spec because they are absent from `src/` (only the tests import them).
-/

namespace GedcomMCP

def chars (s : String) : List Char := s.data

/-- Python's whitespace class for `str.strip` / `str.split` / `\s` (ASCII). -/
def isWS (c : Char) : Bool :=
  c == ' ' || c == '\t' || c == '\n' || c == '\r' || c == '\x0b' || c == '\x0c'

def lowerStr (s : List Char) : List Char := s.map Char.toLower

def upperStr (s : List Char) : List Char := s.map Char.toUpper

/-- Left part of `str.strip()`. -/
def dropWS (s : List Char) : List Char := s.dropWhile (fun c => isWS c)

/-- Python `str.strip()`: drop whitespace from both ends. -/
def pyStrip (s : List Char) : List Char :=
  ((dropWS s).reverse.dropWhile (fun c => isWS c)).reverse

/-- Python `str.split()` (no separator): split on whitespace runs, no empties.
The accumulator holds the current word reversed. -/
def splitWSAux : List Char → List Char → List (List Char)
  | [], acc => if acc = [] then [] else [acc.reverse]
  | c :: rest, acc =>
    if isWS c then
      if acc = [] then splitWSAux rest [] else acc.reverse :: splitWSAux rest []
    else splitWSAux rest (c :: acc)

def splitWS (s : List Char) : List (List Char) := splitWSAux s []

/-- First match of `d([^d]+)d` (the regex scan state: `none` = outside any
candidate span, `some acc` = an opening delimiter was seen and `acc` holds the
non-delimiter characters read since, reversed).  Returns the group. -/
def searchSpanAux (d : Char) : List Char → Option (List Char) → Option (List Char)
  | [], _ => none
  | c :: rest, none =>
    if c = d then searchSpanAux d rest (some []) else searchSpanAux d rest none
  | c :: rest, some acc =>
    if c = d then
      if acc = [] then searchSpanAux d rest (some []) else some acc.reverse
    else searchSpanAux d rest (some (c :: acc))

def searchSpan (d : Char) (s : List Char) : Option (List Char) :=
  searchSpanAux d s none

/-- `re.sub(d[^d]+d, '', s)`: remove every match of the scan. -/
def subSpanAux (d : Char) : List Char → Option (List Char) → List Char
  | [], none => []
  | [], some acc => d :: acc.reverse
  | c :: rest, none =>
    if c = d then subSpanAux d rest (some []) else c :: subSpanAux d rest none
  | c :: rest, some acc =>
    if c = d then
      if acc = [] then d :: subSpanAux d rest (some [])
      else subSpanAux d rest none
    else subSpanAux d rest (some (c :: acc))

def subSpan (d : Char) (s : List Char) : List Char := subSpanAux d s none

/-- Case-insensitively consume the word `w` from the front of a string,
returning the actually consumed characters and the remainder. -/
def ciPre : List Char → List Char → Option (List Char × List Char)
  | [], s => some ([], s)
  | _ :: _, [] => none
  | w :: ws, c :: cs =>
    if Char.toLower c = Char.toLower w then
      (ciPre ws cs).map (fun p => (c :: p.1, p.2))
    else none

/-- One alternative `w\.?` (when `dot`) or `w`, followed by `\s+`, of the
anchored prefix/title regexes; returns the captured group (group 1) and the
string after the whitespace consumed by the greedy `\s+`. -/
def tryWord (w : List Char) (dot : Bool) (s : List Char) :
    Option (List Char × List Char) :=
  match ciPre w s with
  | none => none
  | some (g, rest) =>
    if dot then
      match rest with
      | '.' :: rest2 =>
        match rest2 with
        | c :: _ => if isWS c then some (g ++ ['.'], dropWS rest2) else none
        | [] => none
      | c :: _ => if isWS c then some (g, dropWS rest) else none
      | [] => none
    else
      match rest with
      | c :: _ => if isWS c then some (g, dropWS rest) else none
      | [] => none

/-- Alternation: first alternative that matches wins (regex `|`). -/
def firstTry (alts : List (List Char × Bool)) (s : List Char) :
    Option (List Char × List Char) :=
  match alts with
  | [] => none
  | (w, d) :: rest =>
    match tryWord w d s with
    | some p => some p
    | none => firstTry rest s

/-- Alternatives of
`(Mr\.?|Mrs\.?|Ms\.?|Miss|Mister|Madam|Dr\.?|Prof\.?|Rev\.?|Reverend|Sir|Lady|Lord|Dame)\s+`. -/
def prefixAlts : List (List Char × Bool) :=
  [(chars "Mr", true), (chars "Mrs", true), (chars "Ms", true),
   (chars "Miss", false), (chars "Mister", false), (chars "Madam", false),
   (chars "Dr", true), (chars "Prof", true), (chars "Rev", true),
   (chars "Reverend", false), (chars "Sir", false), (chars "Lady", false),
   (chars "Lord", false), (chars "Dame", false)]

/-- Alternatives of
`(Dr\.?|Doctor|Prof\.?|Professor|Sir|Dame|Lord|Lady|Rev\.?|Reverend)\s+`. -/
def titleAlts : List (List Char × Bool) :=
  [(chars "Dr", true), (chars "Doctor", false), (chars "Prof", true),
   (chars "Professor", false), (chars "Sir", false), (chars "Dame", false),
   (chars "Lord", false), (chars "Lady", false), (chars "Rev", true),
   (chars "Reverend", false)]

/-- Alternatives of `\s+(Jr\.?|Sr\.?|II|III|IV|V|VI|Esq\.?|Esquire)$`. -/
def suffixAlts : List (List Char × Bool) :=
  [(chars "Jr", true), (chars "Sr", true), (chars "II", false),
   (chars "III", false), (chars "IV", false), (chars "V", false),
   (chars "VI", false), (chars "Esq", true), (chars "Esquire", false)]

def prefixMatch (s : List Char) : Option (List Char × List Char) :=
  firstTry prefixAlts s

def titleMatch (s : List Char) : Option (List Char × List Char) :=
  firstTry titleAlts s

/-- Does `g` match the alternative `w` (with optional trailing dot when `d`),
case-insensitively and in full? -/
def ciOk (g w : List Char) (d : Bool) : Bool :=
  lowerStr g == lowerStr w || (d && lowerStr g == lowerStr (w ++ ['.']))

def isSuffixTok (t : List Char) : Bool := suffixAlts.any (fun p => ciOk t p.1 p.2)

def isPrefixTok (t : List Char) : Bool := prefixAlts.any (fun p => ciOk t p.1 p.2)

/-- `re.search(r'\s+(Jr\.?|...)$', s, re.IGNORECASE)`: the match, when any,
takes the maximal non-whitespace suffix of the string (`$` also matches just
before a final newline) as the group, with at least one whitespace character
before it; the leftmost match starts at the beginning of that whitespace run.
Returns the group and `s[:match.start()].strip()`. -/
def sufBody (s : List Char) : List Char :=
  if s.getLast? = some '\n' then s.dropLast else s

def sufTokRev (s : List Char) : List Char :=
  (sufBody s).reverse.takeWhile (fun c => !isWS c)

def sufAfterTok (s : List Char) : List Char :=
  (sufBody s).reverse.drop (sufTokRev s).length

def sufWsRun (s : List Char) : List Char :=
  (sufAfterTok s).takeWhile (fun c => isWS c)

def suffixSearch (s : List Char) : Option (List Char × List Char) :=
  if sufTokRev s ≠ [] ∧ sufWsRun s ≠ [] ∧ isSuffixTok (sufTokRev s).reverse then
    some ((sufTokRev s).reverse, pyStrip ((sufAfterTok s).drop (sufWsRun s).length).reverse)
  else none

/-- The parsed-name value object of the source (`GenealogyName` dataclass). -/
structure GenealogyName where
  original_text : List Char
  given_names : List (List Char)
  surname : List Char
  prefix_ : Option (List Char) := none
  suffix : Option (List Char) := none
  nickname : Option (List Char) := none
  title : Option (List Char) := none
deriving DecidableEq, Repr

/- The extraction pipeline of `parse_genealogy_name`, stage by stage; each
stage is the value of the Python local `name_string` after the corresponding
block, and each `...Of` value is the captured component. -/

def stage0 (s : List Char) : List Char := pyStrip s

def nickOf (s : List Char) : Option (List Char) := searchSpan '"' (stage0 s)

def afterNick (s : List Char) : List Char :=
  match searchSpan '"' (stage0 s) with
  | some _ => pyStrip (subSpan '"' (stage0 s))
  | none => stage0 s

def surOf (s : List Char) : List Char :=
  match searchSpan '/' (afterNick s) with
  | some v => pyStrip v
  | none => []

def afterSur (s : List Char) : List Char :=
  match searchSpan '/' (afterNick s) with
  | some _ => pyStrip (subSpan '/' (afterNick s))
  | none => afterNick s

def prefOf (s : List Char) : Option (List Char) :=
  (prefixMatch (afterSur s)).map Prod.fst

def afterPref (s : List Char) : List Char :=
  match prefixMatch (afterSur s) with
  | some (_, r) => pyStrip r
  | none => afterSur s

def sufOf (s : List Char) : Option (List Char) :=
  (suffixSearch (afterPref s)).map Prod.fst

def afterSuf (s : List Char) : List Char :=
  match suffixSearch (afterPref s) with
  | some (_, r) => r
  | none => afterPref s

def titleOf (s : List Char) : Option (List Char) :=
  match prefOf s with
  | some _ => none
  | none => (titleMatch (afterSuf s)).map Prod.fst

def afterTitle (s : List Char) : List Char :=
  match prefOf s with
  | some _ => afterSuf s
  | none =>
    match titleMatch (afterSuf s) with
    | some (_, r) => pyStrip r
    | none => afterSuf s

/-- Python `str.isupper()` restricted to ASCII letters as cased characters. -/
def pyIsUpper (s : List Char) : Bool :=
  s.any (fun c => c.isAlpha) && s.all (fun c => !c.isAlpha || c.isUpper)

/-- Python `str.islower()` restricted to ASCII letters as cased characters. -/
def pyIsLower (s : List Char) : Bool :=
  s.any (fun c => c.isAlpha) && s.all (fun c => !c.isAlpha || c.isLower)

def prefixesTitles : List (List Char) :=
  [chars "MR", chars "MRS", chars "MS", chars "MISS", chars "MISTER",
   chars "MADAM", chars "DR", chars "DOCTOR", chars "PROF", chars "PROFESSOR",
   chars "REV", chars "REVEREND", chars "SIR", chars "LADY", chars "LORD",
   chars "DAME", chars "JR", chars "SR", chars "ESQ", chars "ESQUIRE"]

/-- `_is_prefix_or_title`: `word.upper() in prefixes_titles`. -/
def is_prefix_or_title (w : List Char) : Bool :=
  decide (upperStr w ∈ prefixesTitles)

/-- The capitalization shape test of the surname-inference heuristic:
`last_word.isupper() or (len(last_word) > 1 and last_word[0].isupper() and
last_word[1:].islower())`. -/
def lastWordShape (lw : List Char) : Bool :=
  pyIsUpper lw ||
    (match lw with
     | c :: rest => decide (rest ≠ []) && c.isUpper && pyIsLower rest
     | [] => false)

/-- Given names and surname after the surname-inference step (pop of the last
given-name token when the heuristic fires). -/
def givensAndSurname (s : List Char) : List (List Char) × List Char :=
  let given0 := splitWS (afterTitle s)
  let sur := surOf s
  if sur = [] ∧ given0 ≠ [] ∧ searchSpan '/' (stage0 s) = none then
    match given0.getLast? with
    | some lw =>
      if lastWordShape lw && !is_prefix_or_title lw then (given0.dropLast, lw)
      else (given0, sur)
    | none => (given0, sur)
  else (given0, sur)

/-- `parse_genealogy_name` of the source. -/
def parse_genealogy_name (s : List Char) : GenealogyName :=
  if s = [] then ⟨[], [], [], none, none, none, none⟩
  else
    ⟨stage0 s, (givensAndSurname s).1, (givensAndSurname s).2,
     prefOf s, sufOf s, nickOf s, titleOf s⟩

def joinSp : List (List Char) → List Char
  | [] => []
  | t :: rest =>
    match rest with
    | [] => t
    | _ :: _ => t ++ ' ' :: joinSp rest

/-- `normalize_name` of the source. -/
def normalize_name (s : List Char) : List Char :=
  if s = [] then []
  else
    let p := parse_genealogy_name s
    joinSp (p.given_names.map lowerStr ++
      (if p.surname ≠ [] then [lowerStr p.surname] else []))

/-- Python truthiness of an optional string. -/
def truthyO : Option (List Char) → Bool
  | some x => decide (x ≠ [])
  | none => false

/-- Parts list of a truthy optional component. -/
def optPart : Option (List Char) → List (List Char)
  | some x => if x = [] then [] else [x]
  | none => []

/-- The nickname variant of `find_name_variants` (lines 192-202). -/
def nickVariant (p : GenealogyName) : List Char :=
  joinSp (optPart p.prefix_ ++ [p.nickname.getD []] ++
    (if p.surname = [] then [] else [p.surname]) ++ optPart p.suffix)

/-- The abbreviated given names (`name[0] + "."` for each nonempty token). -/
def abbrevOf (p : GenealogyName) : List (List Char) :=
  p.given_names.filterMap (fun n =>
    match n with
    | [] => none
    | c :: _ => some [c, '.'])

/-- The abbreviated-given-names variant of `find_name_variants`. -/
def abbrevVariant (p : GenealogyName) : List Char :=
  joinSp (optPart p.prefix_ ++ abbrevOf p ++
    (if p.surname = [] then [] else [p.surname]) ++ optPart p.suffix)

/-- The candidate variants for a parse result, in generation order, before
deduplication. -/
def rawVariantsP (s : List Char) (p : GenealogyName) : List (List Char) :=
  [s] ++
  (if truthyO p.nickname && decide (p.given_names ≠ []) then [nickVariant p] else []) ++
  (if decide (p.given_names ≠ []) &&
      (decide (abbrevOf p ≠ []) || decide (p.surname ≠ [])) then [abbrevVariant p] else []) ++
  (if p.surname ≠ [] then [p.surname] else [])

/-- The candidate variants, in generation order, before deduplication. -/
def rawVariants (s : List Char) : List (List Char) :=
  rawVariantsP s (parse_genealogy_name s)

/-- Order-preserving case-insensitive deduplication (`seen` holds the
lowercased keys already emitted). -/
def dedupCI : List (List Char) → List (List Char) → List (List Char)
  | [], _ => []
  | v :: rest, seen =>
    if lowerStr v ∈ seen then dedupCI rest seen
    else v :: dedupCI rest (lowerStr v :: seen)

/-- `find_name_variants` of the source. -/
def find_name_variants (s : List Char) : List (List Char) :=
  dedupCI (rawVariants s) []

/-- Modelled from the spec: `format_gedcom_name` is imported by the
repository's tests but absent from `src/`.  Per spec section 4.3 it wraps the
surname in a slash-delimited span and places the other present parts (prefix,
given names, suffix) in their natural order around it, space-separated; when
the surname is empty it emits the given names only (no empty slash pair). -/
def format_gedcom_name (p : GenealogyName) : List Char :=
  if p.surname ≠ [] then
    joinSp (optPart p.prefix_ ++ p.given_names ++
      (['/'] ++ p.surname ++ ['/']) :: optPart p.suffix)
  else joinSp p.given_names

/-- Modelled from the spec: `format_gedcom_name_from_string` is the Extractor
followed by the Formatter (spec section 4.3). -/
def format_gedcom_name_from_string (s : List Char) : List Char :=
  format_gedcom_name (parse_genealogy_name s)

/-- The normalized key as worded by the spec: the Extractor's given names (in
order) then the surname, each lowercased, joined with single spaces; prefix,
suffix, title and nickname excluded (an empty surname contributes nothing). -/
def specNormalizedKey (s : List Char) : List Char :=
  joinSp ((parse_genealogy_name s).given_names.map lowerStr ++
    (if (parse_genealogy_name s).surname = [] then []
     else [lowerStr (parse_genealogy_name s).surname]))

/-- A clean token: nonempty, and free of whitespace, slashes and quotes. -/
def cleanTok (t : List Char) : Prop :=
  t ≠ [] ∧ ∀ c ∈ t, isWS c = false ∧ c ≠ '/' ∧ c ≠ '"'

instance (t : List Char) : Decidable (cleanTok t) := by
  unfold cleanTok; infer_instance

/-- Tokens matched by the title pattern but not by the prefix pattern. -/
def isTitleOnlyTok (t : List Char) : Bool :=
  lowerStr t == chars "doctor" || lowerStr t == chars "professor"

/-- A canonical GEDCOM string: pre-span tokens, the slash-delimited surname,
and trailing tokens, joined with single spaces. -/
def canonForm (ts : List (List Char)) (v : List Char) (us : List (List Char)) :
    List Char :=
  joinSp (ts ++ (['/'] ++ v ++ ['/']) :: us)

/-! ### Basic character-level facts (ASCII case folding) -/

set_option maxRecDepth 2048 in
theorem char_ofNat_toNat_small : ∀ n : Nat, n < 256 → (Char.ofNat n).toNat = n := by
  decide

theorem toLower_toUpper (c : Char) : c.toUpper.toLower = c.toLower := by
  unfold Char.toUpper Char.toLower
  by_cases h : 97 ≤ c.toNat ∧ c.toNat ≤ 122
  · rw [if_pos h]
    have h1 : (Char.ofNat (c.toNat - 32)).toNat = c.toNat - 32 :=
      char_ofNat_toNat_small _ (by omega)
    rw [if_pos (by omega :
      65 ≤ (Char.ofNat (c.toNat - 32)).toNat ∧ (Char.ofNat (c.toNat - 32)).toNat ≤ 90)]
    rw [if_neg (by omega : ¬(65 ≤ c.toNat ∧ c.toNat ≤ 90))]
    rw [h1]
    have h2 : c.toNat - 32 + 32 = c.toNat := by omega
    rw [h2, Char.ofNat_toNat]
  · rw [if_neg h]

theorem toUpper_toLower (c : Char) : c.toLower.toUpper = c.toUpper := by
  unfold Char.toUpper Char.toLower
  by_cases h : 65 ≤ c.toNat ∧ c.toNat ≤ 90
  · rw [if_pos h]
    have h1 : (Char.ofNat (c.toNat + 32)).toNat = c.toNat + 32 :=
      char_ofNat_toNat_small _ (by omega)
    rw [if_pos (by omega :
      97 ≤ (Char.ofNat (c.toNat + 32)).toNat ∧ (Char.ofNat (c.toNat + 32)).toNat ≤ 122)]
    rw [if_neg (by omega : ¬(97 ≤ c.toNat ∧ c.toNat ≤ 122))]
    rw [h1]
    have h2 : c.toNat + 32 - 32 = c.toNat := by omega
    rw [h2, Char.ofNat_toNat]
  · rw [if_neg h]

theorem lowerStr_upperStr (w : List Char) : lowerStr (upperStr w) = lowerStr w := by
  unfold lowerStr upperStr
  rw [List.map_map]
  exact List.map_congr_left (fun c _ => toLower_toUpper c)

theorem upperStr_lowerStr (w : List Char) : upperStr (lowerStr w) = upperStr w := by
  unfold lowerStr upperStr
  rw [List.map_map]
  exact List.map_congr_left (fun c _ => toUpper_toLower c)

/-! ### Tokens produced by `splitWS` are nonempty and whitespace-free -/

theorem splitWSAux_clean : ∀ (s acc : List Char), (∀ c ∈ acc, isWS c = false) →
    ∀ t ∈ splitWSAux s acc, t ≠ [] ∧ ∀ c ∈ t, isWS c = false := by
  intro s
  induction s with
  | nil =>
    intro acc hacc t ht
    simp only [splitWSAux] at ht
    split at ht
    · simp at ht
    · rename_i hne
      simp only [List.mem_singleton] at ht
      subst ht
      refine ⟨by simpa using hne, ?_⟩
      intro c hc
      exact hacc c (List.mem_reverse.mp hc)
  | cons c rest ih =>
    intro acc hacc t ht
    simp only [splitWSAux] at ht
    by_cases hws : isWS c
    · rw [if_pos hws] at ht
      by_cases hae : acc = []
      · rw [if_pos hae] at ht
        exact ih [] (by simp) t ht
      · rw [if_neg hae] at ht
        rcases List.mem_cons.mp ht with h | h
        · subst h
          refine ⟨by simpa using hae, ?_⟩
          intro d hd
          exact hacc d (List.mem_reverse.mp hd)
        · exact ih [] (by simp) t h
    · rw [if_neg hws] at ht
      refine ih (c :: acc) ?_ t ht
      intro d hd
      rcases List.mem_cons.mp hd with h | h
      · subst h; simpa using hws
      · exact hacc d h

theorem mem_splitWS_clean {s t : List Char} (h : t ∈ splitWS s) :
    t ≠ [] ∧ ∀ c ∈ t, isWS c = false :=
  splitWSAux_clean s [] (by simp) t h

/-! ### The given names are tokens of the residual working string -/

theorem parse_givens_mem {s g : List Char}
    (h : g ∈ (parse_genealogy_name s).given_names) : g ∈ splitWS (afterTitle s) := by
  unfold parse_genealogy_name at h
  split at h
  · simp at h
  · simp only at h
    unfold givensAndSurname at h
    simp only at h
    split at h
    · split at h
      · split at h
        · exact (List.dropLast_sublist _).mem h
        · exact h
      · exact h
    · exact h

/-! ### Deduplication lemmas -/

theorem dedupCI_not_seen : ∀ (l seen : List (List Char)), ∀ u ∈ dedupCI l seen,
    lowerStr u ∉ seen := by
  intro l
  induction l with
  | nil => intro seen u hu; simp [dedupCI] at hu
  | cons v rest ih =>
    intro seen u hu
    simp only [dedupCI] at hu
    split at hu
    · exact ih _ u hu
    · rename_i hns
      rcases List.mem_cons.mp hu with h | h
      · subst h; exact hns
      · intro hc
        exact (ih _ u h) (List.mem_cons_of_mem _ hc)

theorem dedupCI_pairwise : ∀ (l seen : List (List Char)),
    (dedupCI l seen).Pairwise (fun a b => lowerStr a ≠ lowerStr b) := by
  intro l
  induction l with
  | nil => intro seen; simp [dedupCI]
  | cons v rest ih =>
    intro seen
    simp only [dedupCI]
    split
    · exact ih _
    · refine List.Pairwise.cons ?_ (ih _)
      intro b hb heq
      exact (dedupCI_not_seen rest (lowerStr v :: seen) b hb)
        (by rw [← heq]; exact List.mem_cons_self _ _)

theorem dedupCI_sublist : ∀ (l seen : List (List Char)),
    (dedupCI l seen).Sublist l := by
  intro l
  induction l with
  | nil => intro seen; simp [dedupCI]
  | cons v rest ih =>
    intro seen
    simp only [dedupCI]
    split
    · exact (ih _).cons _
    · exact (ih _).cons₂ _

theorem dedupCI_complete : ∀ (l seen : List (List Char)) (v : List Char), v ∈ l →
    lowerStr v ∈ seen ∨ ∃ u ∈ dedupCI l seen, lowerStr u = lowerStr v := by
  intro l
  induction l with
  | nil => intro seen v hv; simp at hv
  | cons w rest ih =>
    intro seen v hv
    simp only [dedupCI]
    rcases List.mem_cons.mp hv with h | h
    · subst h
      by_cases hs : lowerStr v ∈ seen
      · exact Or.inl hs
      · rw [if_neg hs]
        exact Or.inr ⟨v, List.mem_cons_self _ _, rfl⟩
    · by_cases hs : lowerStr w ∈ seen
      · rw [if_pos hs]
        exact ih seen v h
      · rw [if_neg hs]
        rcases ih (lowerStr w :: seen) v h with hin | ⟨u, hu, hequ⟩
        · rcases List.mem_cons.mp hin with h2 | h2
          · exact Or.inr ⟨w, List.mem_cons_self _ _, h2.symm⟩
          · exact Or.inl h2
        · exact Or.inr ⟨u, List.mem_cons_of_mem _ hu, hequ⟩

theorem prefixesTitles_upper : ∀ t ∈ prefixesTitles, upperStr t = t := by decide

/-! ### Claim theorems: the simple claims -/

/-- C2: `parse_genealogy_name` is total (a total Lean function by
construction) and on empty input returns the all-empty result with
`original_text = ""`, `given_names = []`, `surname = ""` and the four
optional fields absent. -/
theorem claim_C2 :
    parse_genealogy_name (chars "") = ⟨[], [], [], none, none, none, none⟩ := by
  decide

/-- C5 counterexample: `original_text` is not the untouched input; the source
strips the input first (`original = name_string.strip()`), so an input with
surrounding whitespace is changed. -/
theorem claim_C5_counterexample :
    (parse_genealogy_name (chars "  John  ")).original_text ≠ chars "  John  " := by
  decide

/-- C5 amended: for every input string `s`, `original_text` is the stripped
input `s.strip()` (hence equals `s` exactly when `s` carries no leading or
trailing whitespace). -/
theorem claim_C5 : ∀ s : List Char,
    (parse_genealogy_name s).original_text = pyStrip s := by
  intro s
  unfold parse_genealogy_name
  split
  · rename_i h; subst h; rfl
  · rfl

/-- C7: `normalize_name` equals the spec's normalized key (the Extractor's
given names in order, then the nonempty surname, each lowercased, joined with
single spaces; prefix, suffix, title, nickname excluded), and in particular
`normalize_name "  John  /Smith/  " = "john smith"`. -/
theorem claim_C7 :
    (∀ s : List Char, normalize_name s = specNormalizedKey s) ∧
    normalize_name (chars "  John  /Smith/  ") = chars "john smith" := by
  constructor
  · intro s
    unfold normalize_name specNormalizedKey
    split
    · rename_i h; subst h; rfl
    · by_cases h : (parse_genealogy_name s).surname = []
      · simp [h]
      · simp [h]
  · decide

/-- C9: `is_prefix_or_title` is exactly case-insensitive membership in the
combined prefix/title/suffix token set, and in particular
`is_prefix_or_title "mr" = is_prefix_or_title "MR" = true`,
`is_prefix_or_title "SMITH" = false`, `is_prefix_or_title "" = false`. -/
theorem claim_C9 :
    (∀ w : List Char,
      is_prefix_or_title w = true ↔ ∃ t ∈ prefixesTitles, lowerStr w = lowerStr t) ∧
    is_prefix_or_title (chars "mr") = true ∧
    is_prefix_or_title (chars "MR") = true ∧
    is_prefix_or_title (chars "SMITH") = false ∧
    is_prefix_or_title (chars "") = false := by
  refine ⟨?_, by decide, by decide, by decide, by decide⟩
  intro w
  unfold is_prefix_or_title
  rw [decide_eq_true_eq]
  constructor
  · intro h
    exact ⟨upperStr w, h, (lowerStr_upperStr w).symm⟩
  · rintro ⟨t, ht, heq⟩
    have h1 : upperStr w = upperStr t := by
      rw [← upperStr_lowerStr w, ← upperStr_lowerStr t, heq]
    rw [h1, prefixesTitles_upper t ht]
    exact ht

/-- C9 witness: the forward direction of the equivalence applied at the
concrete token `mr`. -/
theorem claim_C9_witness :
    is_prefix_or_title (chars "mr") = true ∧
    ∃ t ∈ prefixesTitles, lowerStr (chars "mr") = lowerStr t :=
  ⟨by decide, (claim_C9.1 (chars "mr")).mp (by decide)⟩

theorem dedupCI_first_occ : ∀ (l seen : List (List Char)), ∀ u ∈ dedupCI l seen,
    ∃ l1 l2, l = l1 ++ u :: l2 ∧ ∀ x ∈ l1, lowerStr x ≠ lowerStr u := by
  intro l
  induction l with
  | nil => intro seen u hu; simp [dedupCI] at hu
  | cons v rest ih =>
    intro seen u hu
    simp only [dedupCI] at hu
    split at hu
    · rename_i hs
      obtain ⟨l1, l2, heq, hne⟩ := ih seen u hu
      have hnu : lowerStr u ∉ seen := dedupCI_not_seen rest seen u hu
      refine ⟨v :: l1, l2, by rw [heq]; rfl, ?_⟩
      intro x hx
      rcases List.mem_cons.mp hx with hx | hx
      · subst hx
        intro hcontra
        rw [hcontra] at hs
        exact hnu hs
      · exact hne x hx
    · rename_i hs
      rcases List.mem_cons.mp hu with hu | hu
      · subst hu
        exact ⟨[], rest, rfl, by simp⟩
      · obtain ⟨l1, l2, heq, hne⟩ := ih (lowerStr v :: seen) u hu
        have hnu : lowerStr u ∉ lowerStr v :: seen :=
          dedupCI_not_seen rest _ u hu
        refine ⟨v :: l1, l2, by rw [heq]; rfl, ?_⟩
        intro x hx
        rcases List.mem_cons.mp hx with hx | hx
        · subst hx
          intro hcontra
          exact hnu (by rw [← hcontra]; exact List.mem_cons_self _ _)
        · exact hne x hx

/-- C8: the variant list of `find_name_variants` contains no two
case-insensitively equal elements; it is a sublist of the generated candidate
list (so order is preserved); every candidate is represented in it up to
case-insensitive equality; and every returned element is the first candidate
of its case-insensitive class in generation order — no earlier candidate
shares its lowercase key — so the first-seen original casing is retained. -/
theorem claim_C8 : ∀ s : List Char,
    (find_name_variants s).Pairwise (fun a b => lowerStr a ≠ lowerStr b) ∧
    (find_name_variants s).Sublist (rawVariants s) ∧
    (∀ v ∈ rawVariants s, ∃ u ∈ find_name_variants s, lowerStr u = lowerStr v) ∧
    ∀ u ∈ find_name_variants s, ∃ l1 l2, rawVariants s = l1 ++ u :: l2 ∧
      ∀ x ∈ l1, lowerStr x ≠ lowerStr u := by
  intro s
  refine ⟨dedupCI_pairwise _ _, dedupCI_sublist _ _, ?_, ?_⟩
  · intro v hv
    rcases dedupCI_complete (rawVariants s) [] v hv with h | h
    · simp at h
    · exact h
  · intro u hu
    exact dedupCI_first_occ (rawVariants s) [] u hu

/-- C8 witness: on `John "j." Smith` the candidates contain the
case-insensitively equal pair `j. Smith` (nickname variant) and `J. Smith`
(abbreviation variant); the returned list keeps the first occurrence
`j. Smith` with its original casing, and the first-occurrence property of the
theorem is exercised at it; the representation property is exercised at the
candidate `Smith` of `John Smith`. -/
theorem claim_C8_witness :
    (chars "j. Smith" ∈ find_name_variants (chars "John \"j.\" Smith") ∧
      chars "J. Smith" ∉ find_name_variants (chars "John \"j.\" Smith") ∧
      chars "J. Smith" ∈ rawVariants (chars "John \"j.\" Smith")) ∧
    (∃ l1 l2, rawVariants (chars "John \"j.\" Smith") =
        l1 ++ chars "j. Smith" :: l2 ∧
      ∀ x ∈ l1, lowerStr x ≠ lowerStr (chars "j. Smith")) ∧
    ∃ u ∈ find_name_variants (chars "John Smith"),
      lowerStr u = lowerStr (chars "Smith") :=
  ⟨by decide,
   (claim_C8 (chars "John \"j.\" Smith")).2.2.2 _ (by decide),
   (claim_C8 (chars "John Smith")).2.2.1 _ (by decide)⟩

/-- C4 counterexample: `parse_genealogy_name "Smith /Smith/"` captures the
surname `Smith` while `given_names = ["Smith"]` still contains that very
string, because the input repeats the token outside the matched span. -/
theorem claim_C4_counterexample :
    (parse_genealogy_name (chars "Smith /Smith/")).surname
      ∈ (parse_genealogy_name (chars "Smith /Smith/")).given_names := by
  decide

/-- C4 amended: every given name is one of the whitespace-separated tokens of
the residual working string left after the matched nickname, surname, prefix,
suffix and title spans were deleted (and is nonempty and whitespace-free);
tokens textually equal to a captured component may remain when the input
repeats their text elsewhere. -/
theorem claim_C4 : ∀ s g : List Char, g ∈ (parse_genealogy_name s).given_names →
    g ∈ splitWS (afterTitle s) ∧ g ≠ [] ∧ ∀ c ∈ g, isWS c = false := by
  intro s g hg
  have h1 := parse_givens_mem hg
  exact ⟨h1, (mem_splitWS_clean h1).1, (mem_splitWS_clean h1).2⟩

/-- C4 witness: the amended membership property at a concrete input. -/
theorem claim_C4_witness :
    chars "John" ∈ (parse_genealogy_name (chars "John Smith")).given_names ∧
    (chars "John" ∈ splitWS (afterTitle (chars "John Smith")) ∧
      chars "John" ≠ [] ∧ ∀ c ∈ chars "John", isWS c = false) :=
  ⟨by decide, claim_C4 (chars "John Smith") (chars "John") (by decide)⟩

/-- C3 counterexample: the title branch is not dead; the title pattern also
matches `Doctor` (and `Professor`), which the prefix pattern does not, so
`parse_genealogy_name "Doctor John Smith"` populates `title`. -/
theorem claim_C3_counterexample :
    (parse_genealogy_name (chars "Doctor John Smith")).title =
      some (chars "Doctor") := by
  decide

/-- C6 counterexample: a nickname is captured but the nickname variant
`Jack Smith` is not generated, because the source also requires a nonempty
`given_names` before adding it. -/
theorem claim_C6_counterexample :
    (parse_genealogy_name (chars "\"Jack\" /Smith/")).nickname =
      some (chars "Jack") ∧
    chars "Jack Smith" ∉ find_name_variants (chars "\"Jack\" /Smith/") := by
  decide

/-- C10 counterexample: in `b "a" "b"` the second quoted span's content `b`
does appear in `given_names`, because the same text also occurs outside the
deleted spans. -/
theorem claim_C10_counterexample :
    (parse_genealogy_name (chars "b \"a\" \"b\"")).nickname = some (chars "a") ∧
    chars "b" ∈ (parse_genealogy_name (chars "b \"a\" \"b\"")).given_names := by
  decide

theorem searchSpanAux_none_no_d (d : Char) :
    ∀ l : List Char, d ∉ l → searchSpanAux d l none = none := by
  intro l
  induction l with
  | nil => intro _; rfl
  | cons c rest ih =>
    intro h
    have hc : ¬(c = d) := fun he => h (he ▸ List.mem_cons_self c rest)
    simp only [searchSpanAux, if_neg hc]
    exact ih (fun hm => h (List.mem_cons_of_mem _ hm))

theorem subSpanAux_none_no_d (d : Char) :
    ∀ l : List Char, d ∉ l → subSpanAux d l none = l := by
  intro l
  induction l with
  | nil => intro _; rfl
  | cons c rest ih =>
    intro h
    have hc : ¬(c = d) := fun he => h (he ▸ List.mem_cons_self c rest)
    simp only [subSpanAux, if_neg hc]
    rw [ih (fun hm => h (List.mem_cons_of_mem _ hm))]

theorem searchSpanAux_none_append (d : Char) :
    ∀ a r : List Char, d ∉ a →
      searchSpanAux d (a ++ r) none = searchSpanAux d r none := by
  intro a
  induction a with
  | nil => intro r _; rfl
  | cons c rest ih =>
    intro r h
    have hc : ¬(c = d) := fun he => h (he ▸ List.mem_cons_self c rest)
    simp only [List.cons_append, searchSpanAux, if_neg hc]
    exact ih r (fun hm => h (List.mem_cons_of_mem _ hm))

theorem subSpanAux_none_append (d : Char) :
    ∀ a r : List Char, d ∉ a →
      subSpanAux d (a ++ r) none = a ++ subSpanAux d r none := by
  intro a
  induction a with
  | nil => intro r _; rfl
  | cons c rest ih =>
    intro r h
    have hc : ¬(c = d) := fun he => h (he ▸ List.mem_cons_self c rest)
    simp only [List.cons_append, subSpanAux, if_neg hc, List.append_eq]
    rw [ih r (fun hm => h (List.mem_cons_of_mem _ hm))]

theorem searchSpanAux_some_content (d : Char) :
    ∀ v acc b : List Char, d ∉ v → acc.reverse ++ v ≠ [] →
      searchSpanAux d (v ++ d :: b) (some acc) = some (acc.reverse ++ v) := by
  intro v
  induction v with
  | nil =>
    intro acc b _ hne
    have hacc : ¬(acc = []) := by
      intro he; subst he; simp at hne
    simp only [List.nil_append, searchSpanAux, if_pos rfl, if_neg hacc]
    simp
  | cons x xs ih =>
    intro acc b h hne
    have hx : ¬(x = d) := fun he => h (he ▸ List.mem_cons_self x xs)
    simp only [List.cons_append, searchSpanAux, if_neg hx, List.append_eq]
    rw [ih (x :: acc) b (fun hm => h (List.mem_cons_of_mem _ hm))
      (by simp)]
    simp

theorem subSpanAux_some_content (d : Char) :
    ∀ v acc b : List Char, d ∉ v → acc.reverse ++ v ≠ [] →
      subSpanAux d (v ++ d :: b) (some acc) = subSpanAux d b none := by
  intro v
  induction v with
  | nil =>
    intro acc b _ hne
    have hacc : ¬(acc = []) := by
      intro he; subst he; simp at hne
    simp only [List.nil_append, subSpanAux, if_true]
    rw [if_neg hacc]
  | cons x xs ih =>
    intro acc b h hne
    have hx : ¬(x = d) := fun he => h (he ▸ List.mem_cons_self x xs)
    simp only [List.cons_append, subSpanAux, if_neg hx, List.append_eq]
    exact ih (x :: acc) b (fun hm => h (List.mem_cons_of_mem _ hm)) (by simp)

theorem searchSpan_span (d : Char) (a v b : List Char)
    (ha : d ∉ a) (hv : d ∉ v) (hne : v ≠ []) :
    searchSpan d (a ++ d :: (v ++ d :: b)) = some v := by
  unfold searchSpan
  rw [searchSpanAux_none_append d a _ ha]
  simp only [searchSpanAux, if_pos rfl]
  rw [searchSpanAux_some_content d v [] b hv (by simpa using hne)]
  simp

theorem subSpan_span (d : Char) (a v b : List Char)
    (ha : d ∉ a) (hv : d ∉ v) (hne : v ≠ []) :
    subSpan d (a ++ d :: (v ++ d :: b)) = a ++ subSpan d b := by
  unfold subSpan
  rw [subSpanAux_none_append d a _ ha]
  simp only [subSpanAux, if_true]
  rw [subSpanAux_some_content d v [] b hv (by simpa using hne)]

/-- C10 amended: for an input whose stripped form decomposes around a first
slash (respectively quote) span, the parser captures exactly the first span
as surname (respectively nickname), and the working string that the later
steps see is the rest of the input with every further matched span removed
as an occurrence; text equal to a later span's content may however still
appear in the output when it also occurs outside the matched spans. -/
theorem claim_C10 :
    (∀ a v b : List Char, '/' ∉ a → '/' ∉ v → v ≠ [] →
      '"' ∉ (a ++ '/' :: (v ++ '/' :: b)) →
      pyStrip (a ++ '/' :: (v ++ '/' :: b)) = a ++ '/' :: (v ++ '/' :: b) →
      (parse_genealogy_name (a ++ '/' :: (v ++ '/' :: b))).surname = pyStrip v ∧
      (parse_genealogy_name (a ++ '/' :: (v ++ '/' :: b))).nickname = none ∧
      afterSur (a ++ '/' :: (v ++ '/' :: b)) = pyStrip (a ++ subSpan '/' b)) ∧
    (∀ a n b : List Char, '"' ∉ a → '"' ∉ n → n ≠ [] →
      pyStrip (a ++ '"' :: (n ++ '"' :: b)) = a ++ '"' :: (n ++ '"' :: b) →
      (parse_genealogy_name (a ++ '"' :: (n ++ '"' :: b))).nickname = some n ∧
      afterNick (a ++ '"' :: (n ++ '"' :: b)) = pyStrip (a ++ subSpan '"' b)) := by
  constructor
  · intro a v b ha hv hne hq hstrip
    set s := a ++ '/' :: (v ++ '/' :: b) with hs
    have hsne : s ≠ [] := by
      simp [hs]
    have hst : stage0 s = s := hstrip
    have hnq : searchSpan '"' (stage0 s) = none := by
      rw [hst]; exact searchSpanAux_none_no_d '"' s hq
    have han : afterNick s = s := by
      unfold afterNick; rw [hnq, hst]
    have hsl : searchSpan '/' (afterNick s) = some v := by
      rw [han, hs]; exact searchSpan_span '/' a v b ha hv hne
    have hsub : subSpan '/' (afterNick s) = a ++ subSpan '/' b := by
      rw [han, hs]; exact subSpan_span '/' a v b ha hv hne
    refine ⟨?_, ?_, ?_⟩
    · unfold parse_genealogy_name
      rw [if_neg hsne]
      simp only
      unfold givensAndSurname
      simp only
      have hsur : surOf s = pyStrip v := by
        unfold surOf; rw [hsl]
      rw [if_neg ?_]
      · exact hsur
      · rintro ⟨-, -, hnos⟩
        rw [hst, hs] at hnos
        rw [searchSpan_span '/' a v b ha hv hne] at hnos
        exact Option.noConfusion hnos
    · unfold parse_genealogy_name
      rw [if_neg hsne]
      simp only
      unfold nickOf
      exact hnq
    · unfold afterSur
      rw [hsl, hsub]
  · intro a n b ha hn hne hstrip
    set s := a ++ '"' :: (n ++ '"' :: b) with hs
    have hsne : s ≠ [] := by
      simp [hs]
    have hst : stage0 s = s := hstrip
    have hsq : searchSpan '"' (stage0 s) = some n := by
      rw [hst, hs]; exact searchSpan_span '"' a n b ha hn hne
    have hsub : subSpan '"' (stage0 s) = a ++ subSpan '"' b := by
      rw [hst, hs]; exact subSpan_span '"' a n b ha hn hne
    constructor
    · unfold parse_genealogy_name
      rw [if_neg hsne]
      simp only
      unfold nickOf
      exact hsq
    · unfold afterNick
      rw [hsq, hsub]

/-- C10 witness: both parts of the amended claim applied at concrete inputs
with a second span of each kind (`b /S/ /T/` and `b "N" "M"`). -/
theorem claim_C10_witness :
    ((parse_genealogy_name (chars "b /S/ /T/")).surname = pyStrip (chars "S") ∧
      (parse_genealogy_name (chars "b /S/ /T/")).nickname = none ∧
      afterSur (chars "b /S/ /T/") = pyStrip (chars "b " ++ subSpan '/' (chars " /T/"))) ∧
    ((parse_genealogy_name (chars "b \"N\" \"M\"")).nickname = some (chars "N") ∧
      afterNick (chars "b \"N\" \"M\"") =
        pyStrip (chars "b " ++ subSpan '"' (chars " \"M\""))) :=
  ⟨claim_C10.1 (chars "b ") (chars "S") (chars " /T/")
      (by decide) (by decide) (by decide) (by decide) (by decide),
   claim_C10.2 (chars "b ") (chars "N") (chars " \"M\"")
      (by decide) (by decide) (by decide) (by decide)⟩

/-! ### Shape lemmas for the anchored honorific regexes -/

theorem toLower_eq_low {t : Char} (ht : t.toNat < 65) (c : Char) :
    c.toLower = t ↔ c = t := by
  constructor
  · intro h
    unfold Char.toLower at h
    by_cases hr : 65 ≤ c.toNat ∧ c.toNat ≤ 90
    · rw [if_pos hr] at h
      have h1 : (Char.ofNat (c.toNat + 32)).toNat = c.toNat + 32 :=
        char_ofNat_toNat_small _ (by omega)
      have h2 := congrArg Char.toNat h
      omega
    · rwa [if_neg hr] at h
  · intro h
    subst h
    unfold Char.toLower
    rw [if_neg (by omega)]

theorem lowerStr_append (a b : List Char) :
    lowerStr (a ++ b) = lowerStr a ++ lowerStr b := by
  simp [lowerStr]

theorem eq_append_dot_of_lower {g w : List Char}
    (h : lowerStr g = lowerStr (w ++ ['.'])) :
    ∃ g0, g = g0 ++ ['.'] ∧ lowerStr g0 = lowerStr w := by
  rw [lowerStr_append] at h
  have hgne : g ≠ [] := by
    intro he
    subst he
    simp [lowerStr] at h
  obtain ⟨g0, x, hx⟩ : ∃ g0 x, g = g0 ++ [x] :=
    ⟨g.dropLast, g.getLast hgne, (List.dropLast_append_getLast hgne).symm⟩
  subst hx
  rw [lowerStr_append] at h
  have hlen : (lowerStr g0).length = (lowerStr w).length := by
    have h2 := congrArg List.length h
    simp [lowerStr] at h2 ⊢
    omega
  obtain ⟨h1, h2⟩ := List.append_inj h hlen
  have hx2 : x = '.' := by
    have h3 : x.toLower = Char.toLower '.' := by
      simpa [lowerStr] using h2
    have h4 : Char.toLower '.' = '.' := by decide
    rw [h4] at h3
    exact (toLower_eq_low (by decide) x).mp h3
  subst hx2
  exact ⟨g0, rfl, h1⟩

theorem ciPre_shape : ∀ (w s g r : List Char), ciPre w s = some (g, r) →
    s = g ++ r ∧ g.length = w.length ∧ lowerStr g = lowerStr w := by
  intro w
  induction w with
  | nil =>
    intro s g r h
    simp only [ciPre, Option.some.injEq, Prod.mk.injEq] at h
    obtain ⟨h1, h2⟩ := h
    subst h1; subst h2
    exact ⟨rfl, rfl, rfl⟩
  | cons wc wrest ih =>
    intro s g r h
    cases s with
    | nil => simp [ciPre] at h
    | cons c cs =>
      simp only [ciPre] at h
      split at h
      · rename_i hlc
        cases hm : ciPre wrest cs with
        | none => rw [hm] at h; simp at h
        | some p =>
          obtain ⟨g0, r0⟩ := p
          rw [hm] at h
          simp only [Option.map_some', Option.some.injEq, Prod.mk.injEq] at h
          obtain ⟨hg, hr⟩ := h
          subst hg; subst hr
          obtain ⟨h1, h2, h3⟩ := ih _ _ _ hm
          refine ⟨by rw [h1]; rfl, by simp [h2], ?_⟩
          simp only [lowerStr, List.map_cons] at h3 ⊢
          rw [hlc, h3]
      · exact absurd h (by simp)

theorem ciPre_of_lower : ∀ (w g r : List Char), lowerStr g = lowerStr w →
    ciPre w (g ++ r) = some (g, r) := by
  intro w
  induction w with
  | nil =>
    intro g r h
    have hg : g = [] := by
      simpa [lowerStr] using h
    subst hg
    rfl
  | cons wc ws ih =>
    intro g r h
    cases g with
    | nil => simp [lowerStr] at h
    | cons c cs =>
      simp only [lowerStr, List.map_cons, List.cons.injEq] at h
      obtain ⟨h1, h2⟩ := h
      simp only [List.cons_append, ciPre, if_pos h1, List.append_eq]
      rw [ih cs r h2]
      rfl

theorem ciOk_iff {g w : List Char} {d : Bool} :
    ciOk g w d = true ↔
      (lowerStr g = lowerStr w ∨ (d = true ∧ lowerStr g = lowerStr (w ++ ['.']))) := by
  cases d <;> simp [ciOk]

theorem tryWord_shape {w : List Char} {d : Bool} {s g r : List Char}
    (h : tryWord w d s = some (g, r)) :
    ∃ c rest, s = g ++ c :: rest ∧ isWS c = true ∧ r = dropWS (c :: rest) ∧
      ciOk g w d = true := by
  unfold tryWord at h
  split at h
  · exact absurd h (by simp)
  · rename_i g0 rest0 hm
    obtain ⟨hs, hlen, hlow⟩ := ciPre_shape w s g0 rest0 hm
    cases d with
    | false =>
      rw [if_neg (by simp)] at h
      split at h
      · rename_i c0 tail
        split at h
        · rename_i hws
          simp only [Option.some.injEq, Prod.mk.injEq] at h
          obtain ⟨hg, hr⟩ := h
          subst hg
          exact ⟨c0, tail, hs, hws, hr.symm, ciOk_iff.mpr (Or.inl hlow)⟩
        · exact absurd h (by simp)
      · exact absurd h (by simp)
    | true =>
      rw [if_pos rfl] at h
      split at h
      · rename_i rest2
        split at h
        · rename_i c1 tail
          split at h
          · rename_i hws
            simp only [Option.some.injEq, Prod.mk.injEq] at h
            obtain ⟨hg, hr⟩ := h
            subst hg
            refine ⟨c1, tail, ?_, hws, hr.symm, ?_⟩
            · rw [hs]; simp
            · refine ciOk_iff.mpr (Or.inr ⟨rfl, ?_⟩)
              rw [lowerStr_append, lowerStr_append, hlow]
          · exact absurd h (by simp)
        · exact absurd h (by simp)
      · rename_i c0 tail hnodot
        split at h
        · rename_i hws
          simp only [Option.some.injEq, Prod.mk.injEq] at h
          obtain ⟨hg, hr⟩ := h
          subst hg
          exact ⟨c0, tail, hs, hws, hr.symm, ciOk_iff.mpr (Or.inl hlow)⟩
        · exact absurd h (by simp)
      · exact absurd h (by simp)

theorem tryWord_construct {w g : List Char} {d : Bool} {c : Char} {rest : List Char}
    (hci : ciOk g w d = true) (hc : isWS c = true) :
    tryWord w d (g ++ c :: rest) = some (g, dropWS (c :: rest)) := by
  rcases ciOk_iff.mp hci with h | ⟨hd, h⟩
  · have hcd : ¬(c = '.') := by
      intro he; subst he; exact absurd hc (by decide)
    unfold tryWord
    rw [ciPre_of_lower w g (c :: rest) h]
    cases d with
    | false =>
      dsimp only
      rw [if_neg (by simp), if_pos hc]
    | true =>
      dsimp only
      rw [if_pos rfl]
      split
      · rename_i rest2 heq
        injection heq with h1 h2
        exact (hcd h1).elim
      · rename_i c0 tail heq
        injection heq with h1 h2
        subst h1; subst h2
        rw [if_pos hc]
      · rename_i heq
        simp at heq
  · obtain ⟨g0, rfl, h0⟩ := eq_append_dot_of_lower h
    subst hd
    unfold tryWord
    rw [show (g0 ++ ['.']) ++ c :: rest = g0 ++ '.' :: c :: rest by simp]
    rw [ciPre_of_lower w g0 ('.' :: c :: rest) h0]
    dsimp only
    rw [if_pos rfl]
    split
    · rename_i rest2 heq
      injection heq with h1 h2
      subst h2
      dsimp only
      rw [if_pos hc]
    all_goals
      first
      | (rename_i hno heqx;
         first
         | exact (hno heqx.1.symm).elim
         | (injection heqx with hh1 hh2; exact (hno hh1.symm).elim))
      | (rename_i heqx; exact absurd heqx (by simp))

theorem firstTry_eq_some : ∀ (alts : List (List Char × Bool)) (s : List Char)
    (p : List Char × List Char), firstTry alts s = some p →
    ∃ wd ∈ alts, tryWord wd.1 wd.2 s = some p := by
  intro alts
  induction alts with
  | nil => intro s p h; exact absurd h (by simp [firstTry])
  | cons wd rest ih =>
    intro s p h
    obtain ⟨w, d⟩ := wd
    unfold firstTry at h
    split at h
    · rename_i q hq
      cases h
      exact ⟨(w, d), List.mem_cons_self _ _, hq⟩
    · obtain ⟨wd2, hm, h2⟩ := ih s p h
      exact ⟨wd2, List.mem_cons_of_mem _ hm, h2⟩

theorem firstTry_ne_none : ∀ (alts : List (List Char × Bool)) (s : List Char)
    (wd : List Char × Bool), wd ∈ alts → tryWord wd.1 wd.2 s ≠ none →
    firstTry alts s ≠ none := by
  intro alts
  induction alts with
  | nil => intro s wd hm; simp at hm
  | cons a rest ih =>
    intro s wd hm hne
    obtain ⟨w, d⟩ := a
    unfold firstTry
    split
    · simp
    · rename_i hq
      rcases List.mem_cons.mp hm with he | he
      · subst he; exact absurd hq hne
      · exact ih s wd he hne

/-! ### Stripping as a take, and transfer of matches across stages -/

theorem dropWhile_as_drop (p : Char → Bool) (l : List Char) :
    l.dropWhile p = l.drop (l.takeWhile p).length := by
  calc l.dropWhile p
      = (l.takeWhile p ++ l.dropWhile p).drop (l.takeWhile p).length := by
        rw [List.drop_left]
    _ = l.drop (l.takeWhile p).length := by
        rw [List.takeWhile_append_dropWhile]

theorem reverse_drop_reverse (l : List Char) (n : Nat) :
    (l.reverse.drop n).reverse = l.take (l.length - n) := by
  rw [← List.rdrop_eq_reverse_drop_reverse]
  rfl

theorem stripR_as_take (l : List Char) :
    ∃ k, (l.reverse.dropWhile (fun c => isWS c)).reverse = l.take k := by
  rw [dropWhile_as_drop]
  exact ⟨_, reverse_drop_reverse l _⟩

theorem pyStrip_as_take (l : List Char) : ∃ k, pyStrip l = (dropWS l).take k :=
  stripR_as_take (dropWS l)

theorem head?_dropWS_not {l : List Char} {c : Char} (h : (dropWS l).head? = some c) :
    isWS c = false := by
  have h2 := List.head?_dropWhile_not (fun c => isWS c) l
  unfold dropWS at h
  rw [h] at h2
  exact h2

theorem dropWS_eq_self_of_head {l : List Char}
    (h : ∀ c, l.head? = some c → isWS c = false) : dropWS l = l := by
  cases l with
  | nil => rfl
  | cons c rest =>
    unfold dropWS
    rw [List.dropWhile_cons, if_neg (by simp [h c rfl])]

theorem take_head? {l : List Char} {k : Nat} {c : Char}
    (h : (l.take k).head? = some c) : l.head? = some c := by
  cases l with
  | nil => simp at h
  | cons a t =>
    cases k with
    | zero => simp at h
    | succ k2 =>
      simp only [List.take_succ_cons, List.head?_cons, Option.some.injEq] at h ⊢
      exact h

theorem dropWS_pyStrip (l : List Char) : dropWS (pyStrip l) = pyStrip l := by
  obtain ⟨k, hk⟩ := pyStrip_as_take l
  apply dropWS_eq_self_of_head
  intro c hc
  rw [hk] at hc
  exact head?_dropWS_not (take_head? hc)

theorem dropWS_stage0 (s : List Char) : dropWS (stage0 s) = stage0 s :=
  dropWS_pyStrip s

theorem dropWS_afterNick (s : List Char) : dropWS (afterNick s) = afterNick s := by
  unfold afterNick
  split
  · exact dropWS_pyStrip _
  · exact dropWS_stage0 s

theorem dropWS_afterSur (s : List Char) : dropWS (afterSur s) = afterSur s := by
  unfold afterSur
  split
  · exact dropWS_pyStrip _
  · exact dropWS_afterNick s

theorem dropWS_afterPref (s : List Char) : dropWS (afterPref s) = afterPref s := by
  unfold afterPref
  split
  · exact dropWS_pyStrip _
  · exact dropWS_afterSur s

theorem suffixSearch_remainder {s tok r : List Char}
    (h : suffixSearch s = some (tok, r)) : ∃ m, r = pyStrip (s.take m) := by
  unfold suffixSearch at h
  split at h
  · rename_i hcond
    simp only [Option.some.injEq, Prod.mk.injEq] at h
    obtain ⟨htok, hr⟩ := h
    unfold sufAfterTok at hr
    rw [List.drop_drop, reverse_drop_reverse] at hr
    unfold sufBody at hr
    split at hr
    · rename_i hlast
      rw [List.dropLast_eq_take, List.take_take] at hr
      exact ⟨_, hr.symm⟩
    · exact ⟨_, hr.symm⟩
  · exact absurd h (by simp)

theorem head?_eq_of_dropWS_self {s : List Char} (hs : dropWS s = s) :
    ∀ c, s.head? = some c → isWS c = false := by
  intro c hc
  exact head?_dropWS_not (by rw [hs]; exact hc)

theorem pyStrip_take_of_stripped {s : List Char} (hs : dropWS s = s) (m : Nat) :
    ∃ k, pyStrip (s.take m) = s.take k := by
  obtain ⟨k, hk⟩ := pyStrip_as_take (s.take m)
  have hd : dropWS (s.take m) = s.take m := by
    apply dropWS_eq_self_of_head
    intro c hc
    exact head?_eq_of_dropWS_self hs c (take_head? hc)
  rw [hd] at hk
  rw [hk, List.take_take]
  exact ⟨min k m, rfl⟩

theorem tryWord_of_strip_take {w : List Char} {d : Bool} {s : List Char} {m : Nat}
    {p : List Char × List Char} (hs : dropWS s = s)
    (h : tryWord w d (pyStrip (s.take m)) = some p) : tryWord w d s ≠ none := by
  obtain ⟨g, r⟩ := p
  obtain ⟨c, rest, hshape, hws, hr, hci⟩ := tryWord_shape h
  obtain ⟨k, hk⟩ := pyStrip_take_of_stripped hs m
  rw [hk] at hshape
  have hsplit : s = g ++ c :: (rest ++ s.drop k) := by
    conv_lhs => rw [← List.take_append_drop k s]
    rw [hshape]
    simp
  rw [hsplit, tryWord_construct hci hws]
  simp

theorem afterSuf_cases (s : List Char) :
    afterSuf s = afterPref s ∨ ∃ m, afterSuf s = pyStrip ((afterPref s).take m) := by
  unfold afterSuf
  cases h : suffixSearch (afterPref s) with
  | none => exact Or.inl rfl
  | some p =>
    obtain ⟨tok, r⟩ := p
    obtain ⟨m, hm⟩ := suffixSearch_remainder h
    exact Or.inr ⟨m, hm⟩

theorem prefOf_none_iff {s : List Char} :
    prefOf s = none ↔ prefixMatch (afterSur s) = none := by
  unfold prefOf
  cases h : prefixMatch (afterSur s) <;> simp

theorem afterPref_of_none {s : List Char} (h : prefOf s = none) :
    afterPref s = afterSur s := by
  unfold afterPref
  rw [prefOf_none_iff.mp h]

/-- C3 amended: the title branch is not dead, but it is reachable only for
the two tokens the title pattern recognizes and the prefix pattern does not:
whenever `parse_genealogy_name` populates `title`, the prefix is absent and
the captured title is `Doctor` or `Professor` up to letter case; every other
leading honorific is taken by the prefix check first. -/
theorem claim_C3 : ∀ s t : List Char, (parse_genealogy_name s).title = some t →
    (parse_genealogy_name s).prefix_ = none ∧
    (lowerStr t = chars "doctor" ∨ lowerStr t = chars "professor") := by
  intro s t h
  by_cases hs : s = []
  · subst hs
    simp [parse_genealogy_name] at h
  · have htl : titleOf s = some t := by
      unfold parse_genealogy_name at h
      rw [if_neg hs] at h
      exact h
    have hpf : prefOf s = none := by
      unfold titleOf at htl
      cases hp : prefOf s with
      | some p => rw [hp] at htl; exact absurd htl (by simp)
      | none => rfl
    refine ⟨?_, ?_⟩
    · unfold parse_genealogy_name
      rw [if_neg hs]
      exact hpf
    · unfold titleOf at htl
      rw [hpf] at htl
      dsimp only at htl
      cases hm : titleMatch (afterSuf s) with
      | none => rw [hm] at htl; exact absurd htl (by simp)
      | some p =>
        obtain ⟨t0, r0⟩ := p
        rw [hm] at htl
        simp only [Option.map_some', Option.some.injEq] at htl
        subst htl
        obtain ⟨wd, hwd, htw⟩ := firstTry_eq_some titleAlts (afterSuf s) (t0, r0) hm
        have hescape : wd ∈ prefixAlts → False := by
          intro hmem
          have htrans : tryWord wd.1 wd.2 (afterPref s) ≠ none := by
            rcases afterSuf_cases s with he | ⟨m, he⟩
            · rw [he] at htw
              rw [htw]
              simp
            · rw [he] at htw
              exact tryWord_of_strip_take (dropWS_afterPref s) htw
          have h2 := firstTry_ne_none prefixAlts (afterPref s) wd hmem htrans
          rw [afterPref_of_none hpf] at h2
          exact h2 (prefOf_none_iff.mp hpf)
        obtain ⟨c, rest, hshape, hws, hr, hci⟩ := tryWord_shape htw
        have hcio := ciOk_iff.mp hci
        simp only [titleAlts, List.mem_cons, List.not_mem_nil, or_false] at hwd
        rcases hwd with h1|h1|h1|h1|h1|h1|h1|h1|h1|h1
        · exact (hescape (by rw [h1]; decide)).elim
        · left
          rw [h1] at hcio
          rcases hcio with h2 | ⟨h2, h3⟩
          · rw [h2]; decide
          · simp at h2
        · exact (hescape (by rw [h1]; decide)).elim
        · right
          rw [h1] at hcio
          rcases hcio with h2 | ⟨h2, h3⟩
          · rw [h2]; decide
          · simp at h2
        · exact (hescape (by rw [h1]; decide)).elim
        · exact (hescape (by rw [h1]; decide)).elim
        · exact (hescape (by rw [h1]; decide)).elim
        · exact (hescape (by rw [h1]; decide)).elim
        · exact (hescape (by rw [h1]; decide)).elim
        · exact (hescape (by rw [h1]; decide)).elim

/-- C3 witness: the amended characterization applied at `Doctor John Smith`,
where the title branch fires. -/
theorem claim_C3_witness :
    (parse_genealogy_name (chars "Doctor John Smith")).title =
      some (chars "Doctor") ∧
    ((parse_genealogy_name (chars "Doctor John Smith")).prefix_ = none ∧
      (lowerStr (chars "Doctor") = chars "doctor" ∨
        lowerStr (chars "Doctor") = chars "professor")) :=
  ⟨by decide, claim_C3 (chars "Doctor John Smith") (chars "Doctor") (by decide)⟩

/-! ### Quote-count bounds for the nickname-variant claim -/

theorem count_quote_lowerStr (l : List Char) :
    (lowerStr l).count '"' = l.count '"' := by
  induction l with
  | nil => rfl
  | cons c rest ih =>
    simp only [lowerStr, List.map_cons, List.count_cons] at *
    rw [ih]
    have hiff := toLower_eq_low (show ('"' : Char).toNat < 65 by decide) c
    by_cases hc : c = '"'
    · have h2 : c.toLower = '"' := hiff.mpr hc
      simp [hc, h2]
    · have h2 : ¬(c.toLower = '"') := fun he => hc (hiff.mp he)
      simp [hc, h2]

theorem lowerStr_no_quote {g w : List Char} (h : lowerStr g = lowerStr w)
    (hw : ('"' : Char) ∉ w) : ('"' : Char) ∉ g := by
  intro hq
  have h1 : ('"' : Char) ∈ lowerStr g := by
    have h2 : Char.toLower '"' ∈ lowerStr g := List.mem_map_of_mem _ hq
    simpa using h2
  rw [h] at h1
  obtain ⟨c, hc, he⟩ := List.mem_map.mp h1
  exact hw ((toLower_eq_low (by decide) c).mp he ▸ hc)

theorem ciOk_no_quote {g w : List Char} {d : Bool} (hci : ciOk g w d = true)
    (hw : ('"' : Char) ∉ w) : ('"' : Char) ∉ g := by
  rcases ciOk_iff.mp hci with h2 | ⟨_, h2⟩
  · exact lowerStr_no_quote h2 hw
  · refine lowerStr_no_quote h2 ?_
    intro hq
    rcases List.mem_append.mp hq with h3 | h3
    · exact hw h3
    · simp at h3

theorem prefOf_no_quote {s pre : List Char} (h : prefOf s = some pre) :
    ('"' : Char) ∉ pre := by
  unfold prefOf at h
  cases hm : prefixMatch (afterSur s) with
  | none => rw [hm] at h; exact absurd h (by simp)
  | some q =>
    obtain ⟨g, r⟩ := q
    rw [hm] at h
    simp only [Option.map_some', Option.some.injEq] at h
    subst h
    obtain ⟨wd, hmem, htw⟩ := firstTry_eq_some prefixAlts (afterSur s) (g, r) hm
    obtain ⟨c, rest, _, _, _, hci⟩ := tryWord_shape htw
    refine ciOk_no_quote hci ?_
    have : ∀ wd ∈ prefixAlts, ('"' : Char) ∉ wd.1 := by decide
    exact this wd hmem

theorem sufOf_no_quote {s suf : List Char} (h : sufOf s = some suf) :
    ('"' : Char) ∉ suf := by
  unfold sufOf at h
  cases hm : suffixSearch (afterPref s) with
  | none => rw [hm] at h; exact absurd h (by simp)
  | some q =>
    obtain ⟨tok, r⟩ := q
    rw [hm] at h
    simp only [Option.map_some', Option.some.injEq] at h
    subst h
    unfold suffixSearch at hm
    split at hm
    · rename_i hcond
      simp only [Option.some.injEq, Prod.mk.injEq] at hm
      obtain ⟨htok, -⟩ := hm
      rw [← htok]
      unfold isSuffixTok at hcond
      rw [List.any_eq_true] at hcond
      · obtain ⟨wd, hmem, hci⟩ := hcond.2.2
        refine ciOk_no_quote hci ?_
        have : ∀ wd ∈ suffixAlts, ('"' : Char) ∉ wd.1 := by decide
        exact this wd hmem
    · exact absurd hm (by simp)

theorem searchSpanAux_no_d (d : Char) :
    ∀ (l : List Char) (st : Option (List Char)) (v : List Char),
      (∀ a, st = some a → d ∉ a) → searchSpanAux d l st = some v → d ∉ v := by
  intro l
  induction l with
  | nil => intro st v hst h; exact absurd h (by cases st <;> simp [searchSpanAux])
  | cons c rest ih =>
    intro st v hst h
    cases st with
    | none =>
      by_cases hc : c = d
      · simp only [searchSpanAux, if_pos hc] at h
        exact ih (some []) v (by intro a ha; injection ha with ha2; subst ha2; simp) h
      · simp only [searchSpanAux, if_neg hc] at h
        exact ih none v (by intro a ha; exact absurd ha (by simp)) h
    | some acc =>
      by_cases hc : c = d
      · simp only [searchSpanAux, if_pos hc] at h
        by_cases hacc : acc = []
        · rw [if_pos hacc] at h
          exact ih (some []) v (by intro a ha; injection ha with ha2; subst ha2; simp) h
        · rw [if_neg hacc] at h
          have hv : acc.reverse = v := by injection h
          intro hq
          exact hst acc rfl (List.mem_reverse.mp (hv ▸ hq))
      · simp only [searchSpanAux, if_neg hc] at h
        refine ih (some (c :: acc)) v ?_ h
        intro a ha
        injection ha with ha2
        subst ha2
        intro hq
        rcases List.mem_cons.mp hq with h2 | h2
        · exact hc h2.symm
        · exact hst acc rfl h2

theorem nickOf_no_quote {s nk : List Char} (h : nickOf s = some nk) :
    ('"' : Char) ∉ nk :=
  searchSpanAux_no_d '"' (stage0 s) none nk (by intro a ha; exact absurd ha (by simp)) h

theorem searchSpanAux_sublist_some (d : Char) :
    ∀ (l acc v : List Char), searchSpanAux d l (some acc) = some v →
      v.Sublist (acc.reverse ++ l) := by
  intro l
  induction l with
  | nil => intro acc v h; exact absurd h (by simp [searchSpanAux])
  | cons c rest ih =>
    intro acc v h
    by_cases hc : c = d
    · simp only [searchSpanAux, if_pos hc] at h
      by_cases hacc : acc = []
      · subst hacc
        rw [if_pos rfl] at h
        have h2 := ih [] v h
        simp only [List.reverse_nil, List.nil_append] at h2 ⊢
        exact h2.trans (List.sublist_cons_self c rest)
      · rw [if_neg hacc] at h
        have hv : acc.reverse = v := by injection h
        rw [← hv]
        exact List.sublist_append_left _ _
    · simp only [searchSpanAux, if_neg hc] at h
      have h2 := ih (c :: acc) v h
      simp only [List.reverse_cons] at h2
      rw [List.append_assoc] at h2
      exact h2

theorem searchSpan_sublist {d : Char} {l v : List Char}
    (h : searchSpan d l = some v) : v.Sublist l := by
  unfold searchSpan at h
  induction l with
  | nil => exact absurd h (by simp [searchSpanAux])
  | cons c rest ih =>
    by_cases hc : c = d
    · simp only [searchSpanAux, if_pos hc] at h
      have h2 := searchSpanAux_sublist_some d rest [] v h
      simpa using h2.trans (List.sublist_cons_self c rest)
    · simp only [searchSpanAux, if_neg hc] at h
      exact (ih h).trans (List.sublist_cons_self c rest)

theorem subSpanAux_sublist (d : Char) :
    ∀ (l : List Char) (st : Option (List Char)),
      (subSpanAux d l st).Sublist
        ((match st with | some acc => d :: acc.reverse | none => []) ++ l) := by
  intro l
  induction l with
  | nil =>
    intro st
    cases st with
    | none => simp [subSpanAux]
    | some acc => simp [subSpanAux]
  | cons c rest ih =>
    intro st
    cases st with
    | none =>
      by_cases hc : c = d
      · simp only [subSpanAux, if_pos hc, List.nil_append]
        subst hc
        have h2 : (subSpanAux c rest (some [])).Sublist (c :: rest) := by
          simpa using ih (some [])
        exact h2
      · simp only [subSpanAux, if_neg hc, List.nil_append]
        exact (ih none).cons₂ c
    | some acc =>
      by_cases hc : c = d
      · simp only [subSpanAux, if_pos hc]
        by_cases hacc : acc = []
        · subst hacc
          subst hc
          rw [if_pos rfl]
          have h2 : (subSpanAux c rest (some [])).Sublist (c :: rest) := by
            simpa using ih (some [])
          simp only [List.reverse_nil, List.cons_append, List.nil_append]
          exact h2.cons₂ c
        · rw [if_neg hacc]
          have h2 : (subSpanAux d rest none).Sublist rest := by
            simpa using ih none
          have h3 : rest.Sublist (acc.reverse ++ c :: rest) :=
            (List.sublist_cons_self c rest).trans (List.sublist_append_right _ _)
          simp only [List.cons_append]
          exact (h2.trans h3).cons d
      · simp only [subSpanAux, if_neg hc]
        have h2 := ih (some (c :: acc))
        simp only [List.reverse_cons] at h2
        refine h2.trans ?_
        simp [List.append_assoc]

theorem subSpan_sublist (d : Char) (l : List Char) : (subSpan d l).Sublist l := by
  have h := subSpanAux_sublist d l none
  simpa using h

theorem pyStrip_sublist (l : List Char) : (pyStrip l).Sublist l := by
  obtain ⟨k, hk⟩ := pyStrip_as_take l
  rw [hk]
  exact (List.take_sublist _ _).trans (List.dropWhile_sublist _)

theorem subSpanAux_count_none (d : Char) :
    ∀ l : List Char, (subSpanAux d l none).count d ≤ l.count d := by
  intro l
  induction l with
  | nil => simp [subSpanAux]
  | cons c rest ih =>
    by_cases hc : c = d
    · subst hc
      simp only [subSpanAux, if_pos rfl]
      have h2 := (subSpanAux_sublist c rest (some [])).count_le c
      simp only [List.reverse_nil, List.cons_append, List.nil_append,
        List.count_cons, beq_self_eq_true, if_true] at h2
      simp only [List.count_cons, beq_self_eq_true, if_true]
      omega
    · simp only [subSpanAux, if_neg hc, List.count_cons]
      have hbe : (c == d) = false := by
        simp [hc]
      simp [hbe, ih]

theorem subSpanAux_count_some (d : Char) :
    ∀ (l acc : List Char) (v : List Char),
      searchSpanAux d l (some acc) = some v →
      (subSpanAux d l (some acc)).count d + 1 ≤ l.count d := by
  intro l
  induction l with
  | nil => intro acc v h; exact absurd h (by simp [searchSpanAux])
  | cons c rest ih =>
    intro acc v h
    by_cases hc : c = d
    · subst hc
      simp only [searchSpanAux, if_pos rfl] at h
      simp only [subSpanAux, if_pos rfl]
      by_cases hacc : acc = []
      · rw [if_pos hacc] at h
        rw [if_pos hacc]
        have h2 := ih [] v h
        simp only [List.count_cons, beq_self_eq_true, if_true]
        omega
      · rw [if_neg hacc]
        have h2 := subSpanAux_count_none c rest
        simp only [List.count_cons, beq_self_eq_true, if_true]
        omega
    · simp only [searchSpanAux, if_neg hc] at h
      simp only [subSpanAux, if_neg hc, List.count_cons]
      have hbe : (c == d) = false := by simp [hc]
      have h2 := ih (c :: acc) v h
      simp [hbe]
      omega

theorem subSpan_count_matched {d : Char} {l v : List Char}
    (h : searchSpan d l = some v) :
    (subSpan d l).count d + 2 ≤ l.count d := by
  unfold searchSpan at h
  unfold subSpan
  induction l with
  | nil => exact absurd h (by simp [searchSpanAux])
  | cons c rest ih =>
    by_cases hc : c = d
    · subst hc
      simp only [searchSpanAux, if_pos rfl] at h
      simp only [subSpanAux, if_pos rfl]
      have h2 := subSpanAux_count_some c rest [] v h
      simp only [List.count_cons, beq_self_eq_true, if_true]
      omega
    · simp only [searchSpanAux, if_neg hc] at h
      simp only [subSpanAux, if_neg hc, List.count_cons]
      have hbe : (c == d) = false := by simp [hc]
      have h2 := ih h
      simp [hbe]
      omega

/-! ### Later pipeline stages are sublists of earlier ones -/

theorem afterSur_sublist (s : List Char) : (afterSur s).Sublist (afterNick s) := by
  unfold afterSur
  split
  · exact (pyStrip_sublist _).trans (subSpan_sublist '/' _)
  · exact List.Sublist.refl _

theorem afterPref_sublist (s : List Char) : (afterPref s).Sublist (afterSur s) := by
  unfold afterPref
  cases hm : prefixMatch (afterSur s) with
  | none => exact List.Sublist.refl _
  | some q =>
    obtain ⟨g, r⟩ := q
    obtain ⟨wd, hmem, htw⟩ := firstTry_eq_some prefixAlts (afterSur s) (g, r) hm
    obtain ⟨c, rest, hshape, hws, hr, hci⟩ := tryWord_shape htw
    refine (pyStrip_sublist _).trans ?_
    rw [hr, hshape]
    refine List.Sublist.trans ?_ (List.sublist_append_right g (c :: rest))
    exact (List.dropWhile_sublist _)

theorem afterSuf_sublist (s : List Char) : (afterSuf s).Sublist (afterPref s) := by
  rcases afterSuf_cases s with he | ⟨m, he⟩
  · rw [he]
  · rw [he]
    exact (pyStrip_sublist _).trans (List.take_sublist _ _)

theorem afterTitle_sublist (s : List Char) : (afterTitle s).Sublist (afterSuf s) := by
  unfold afterTitle
  cases hp : prefOf s with
  | some q => exact List.Sublist.refl _
  | none =>
    cases hm : titleMatch (afterSuf s) with
    | none => exact List.Sublist.refl _
    | some q =>
      obtain ⟨g, r⟩ := q
      obtain ⟨wd, hmem, htw⟩ := firstTry_eq_some titleAlts (afterSuf s) (g, r) hm
      obtain ⟨c, rest, hshape, hws, hr, hci⟩ := tryWord_shape htw
      refine (pyStrip_sublist _).trans ?_
      rw [hr, hshape]
      refine List.Sublist.trans ?_ (List.sublist_append_right g (c :: rest))
      exact (List.dropWhile_sublist _)

theorem splitWSAux_token_sublist :
    ∀ (s acc t : List Char), t ∈ splitWSAux s acc → t.Sublist (acc.reverse ++ s) := by
  intro s
  induction s with
  | nil =>
    intro acc t ht
    simp only [splitWSAux] at ht
    split at ht
    · simp at ht
    · simp only [List.mem_singleton] at ht
      subst ht
      simp
  | cons c rest ih =>
    intro acc t ht
    simp only [splitWSAux] at ht
    by_cases hws : isWS c
    · rw [if_pos hws] at ht
      by_cases hacc : acc = []
      · rw [if_pos hacc] at ht
        have h2 := ih [] t ht
        simp only [List.reverse_nil, List.nil_append] at h2
        exact (h2.trans (List.sublist_cons_self c rest)).trans
          (List.sublist_append_right _ _)
      · rw [if_neg hacc] at ht
        rcases List.mem_cons.mp ht with he | he
        · subst he
          exact (List.sublist_append_left _ _)
        · have h2 := ih [] t he
          simp only [List.reverse_nil, List.nil_append] at h2
          exact (h2.trans (List.sublist_cons_self c rest)).trans
            (List.sublist_append_right _ _)
    · rw [if_neg hws] at ht
      have h2 := ih (c :: acc) t ht
      simp only [List.reverse_cons] at h2
      rw [List.append_assoc] at h2
      exact h2

theorem mem_splitWS_sublist {x t : List Char} (h : t ∈ splitWS x) : t.Sublist x := by
  have h2 := splitWSAux_token_sublist x [] t h
  simpa using h2

/-! ### Quote count of the generated nickname variant -/

theorem count_quote_joinSp : ∀ x : List (List Char),
    (joinSp x).count '"' = (x.map (fun t => t.count '"')).sum := by
  intro x
  induction x with
  | nil => rfl
  | cons t rest ih =>
    cases rest with
    | nil => simp [joinSp]
    | cons u rest2 =>
      show (t ++ ' ' :: joinSp (u :: rest2)).count '"' = _
      rw [List.count_append, List.count_cons, ih]
      simp

theorem dedup_second_mem {a b : List Char} {rest : List (List Char)}
    (h : lowerStr b ≠ lowerStr a) : b ∈ dedupCI (a :: b :: rest) [] := by
  have h1 : ¬(lowerStr a ∈ ([] : List (List Char))) := by simp
  have h2 : ¬(lowerStr b ∈ [lowerStr a]) := by simpa using h
  simp only [dedupCI, if_neg h1, if_neg h2]
  exact List.mem_cons_of_mem _ (List.mem_cons_self _ _)

theorem rawVariantsP_nick {s : List Char} {p : GenealogyName}
    (hn : truthyO p.nickname = true) (hg : p.given_names ≠ []) :
    rawVariantsP s p = s :: nickVariant p ::
      ((if decide (p.given_names ≠ []) &&
          (decide (abbrevOf p ≠ []) || decide (p.surname ≠ []))
        then [abbrevVariant p] else []) ++
       (if p.surname ≠ [] then [p.surname] else [])) := by
  unfold rawVariantsP
  rw [hn, decide_eq_true hg]
  simp

theorem surname_count_le (s : List Char) (hsne : s ≠ []) :
    ((parse_genealogy_name s).surname).count '"' ≤ (afterNick s).count '"' := by
  have hsurOf : (surOf s).count '"' ≤ (afterNick s).count '"' := by
    unfold surOf
    cases hv : searchSpan '/' (afterNick s) with
    | none => simp
    | some v =>
      exact ((pyStrip_sublist v).trans (searchSpan_sublist hv)).count_le '"'
  have hchain : (afterTitle s).Sublist (afterNick s) :=
    ((afterTitle_sublist s).trans (afterSuf_sublist s)).trans
      ((afterPref_sublist s).trans (afterSur_sublist s))
  unfold parse_genealogy_name
  rw [if_neg hsne]
  dsimp only
  unfold givensAndSurname
  dsimp only
  split
  · split
    · split
      · rename_i hcond hlast hshape
        have hmem := List.mem_of_getLast?_eq_some hlast
        exact ((mem_splitWS_sublist hmem).trans hchain).count_le '"'
      · exact hsurOf
    · exact hsurOf
  · exact hsurOf

/-- C6 amended: on every input where a nickname is captured and at least one
given name remains, the variant prefix + nickname + surname + suffix
(space-joined, absent parts omitted) is generated and survives the
case-insensitive deduplication, so it is in the returned list; without a
given name the source skips this variant. -/
theorem claim_C6 : ∀ s : List Char,
    truthyO (parse_genealogy_name s).nickname = true →
    (parse_genealogy_name s).given_names ≠ [] →
    nickVariant (parse_genealogy_name s) ∈ find_name_variants s := by
  intro s hn hg
  have hsne : s ≠ [] := by
    intro he
    subst he
    simp [parse_genealogy_name, truthyO] at hn
  have hnickeq : (parse_genealogy_name s).nickname = nickOf s := by
    unfold parse_genealogy_name
    rw [if_neg hsne]
  have hnick : ∃ nk, nickOf s = some nk := by
    rw [hnickeq] at hn
    cases h : nickOf s with
    | none => rw [h] at hn; simp [truthyO] at hn
    | some nk => exact ⟨nk, rfl⟩
  obtain ⟨nk, hnk⟩ := hnick
  have hc_nick : (afterNick s).count '"' + 2 ≤ (stage0 s).count '"' := by
    unfold afterNick
    rw [show searchSpan '"' (stage0 s) = some nk from hnk]
    dsimp only
    have h1 := subSpan_count_matched hnk
    have h2 := (pyStrip_sublist (subSpan '"' (stage0 s))).count_le '"'
    omega
  have hc_s : (stage0 s).count '"' ≤ s.count '"' := (pyStrip_sublist s).count_le '"'
  have hsur := surname_count_le s hsne
  have hpre : ((optPart (parse_genealogy_name s).prefix_).map
      (fun t => t.count '"')).sum = 0 := by
    have hpeq : (parse_genealogy_name s).prefix_ = prefOf s := by
      unfold parse_genealogy_name
      rw [if_neg hsne]
    rw [hpeq]
    cases h : prefOf s with
    | none => rfl
    | some pre =>
      unfold optPart
      dsimp only
      by_cases he : pre = []
      · rw [if_pos he]; rfl
      · rw [if_neg he]
        simp [List.count_eq_zero_of_not_mem (prefOf_no_quote h)]
  have hsu : ((optPart (parse_genealogy_name s).suffix).map
      (fun t => t.count '"')).sum = 0 := by
    have hpeq : (parse_genealogy_name s).suffix = sufOf s := by
      unfold parse_genealogy_name
      rw [if_neg hsne]
    rw [hpeq]
    cases h : sufOf s with
    | none => rfl
    | some suf =>
      unfold optPart
      dsimp only
      by_cases he : suf = []
      · rw [if_pos he]; rfl
      · rw [if_neg he]
        simp [List.count_eq_zero_of_not_mem (sufOf_no_quote h)]
  have hnk0 : ((parse_genealogy_name s).nickname.getD []).count '"' = 0 := by
    rw [hnickeq, hnk]
    exact List.count_eq_zero_of_not_mem (nickOf_no_quote hnk)
  have hvar : (nickVariant (parse_genealogy_name s)).count '"' ≤
      ((parse_genealogy_name s).surname).count '"' := by
    unfold nickVariant
    rw [count_quote_joinSp]
    simp only [List.map_append, List.sum_append, List.map_cons, List.map_nil,
      List.sum_cons, List.sum_nil]
    rw [hnk0]
    by_cases he : (parse_genealogy_name s).surname = []
    · simp only [if_pos he]
      simp [hpre, hsu]
    · simp only [if_neg he]
      simp only [List.map_cons, List.map_nil, List.sum_cons, List.sum_nil]
      omega
  have hne2 : lowerStr (nickVariant (parse_genealogy_name s)) ≠ lowerStr s := by
    intro he
    have h1 := congrArg (List.count '"') he
    rw [count_quote_lowerStr, count_quote_lowerStr] at h1
    omega
  have hraw := @rawVariantsP_nick s (parse_genealogy_name s) hn hg
  unfold find_name_variants rawVariants
  rw [hraw]
  exact dedup_second_mem hne2

/-- C6 witness: the amended claim at `John "Jack" Smith`, whose nickname
variant `Jack Smith` is returned. -/
theorem claim_C6_witness :
    truthyO (parse_genealogy_name (chars "John \"Jack\" Smith")).nickname = true ∧
    (parse_genealogy_name (chars "John \"Jack\" Smith")).given_names ≠ [] ∧
    nickVariant (parse_genealogy_name (chars "John \"Jack\" Smith")) ∈
      find_name_variants (chars "John \"Jack\" Smith") :=
  ⟨by decide, by decide, claim_C6 (chars "John \"Jack\" Smith") (by decide) (by decide)⟩

/-! ### Token-level infrastructure for the canonical-form theorem -/

theorem mem_of_head? {l : List Char} {c : Char} (h : l.head? = some c) : c ∈ l := by
  cases l with
  | nil => simp at h
  | cons a t =>
    simp only [List.head?_cons, Option.some.injEq] at h
    subst h
    exact List.mem_cons_self _ _

theorem not_mem_joinSp {X : List (List Char)} {c : Char} (hc : ¬(c = ' '))
    (h : ∀ t ∈ X, c ∉ t) : c ∉ joinSp X := by
  induction X with
  | nil => simp [joinSp]
  | cons t rest ih =>
    cases rest with
    | nil =>
      simpa [joinSp] using h t (List.mem_cons_self _ _)
    | cons u rest2 =>
      show c ∉ t ++ ' ' :: joinSp (u :: rest2)
      intro hm
      rcases List.mem_append.mp hm with hm | hm
      · exact h t (List.mem_cons_self _ _) hm
      · rcases List.mem_cons.mp hm with hm | hm
        · exact hc hm
        · exact ih (fun x hx => h x (List.mem_cons_of_mem _ hx)) hm

theorem joinSp_cons_cons (t u : List Char) (rest : List (List Char)) :
    joinSp (t :: u :: rest) = t ++ ' ' :: joinSp (u :: rest) := rfl

theorem joinSp_head_not_ws {X : List (List Char)}
    (h : ∀ t ∈ X, t ≠ [] ∧ ∀ c ∈ t, isWS c = false) :
    ∀ c, (joinSp X).head? = some c → isWS c = false := by
  intro c hc
  cases X with
  | nil => simp [joinSp] at hc
  | cons t rest =>
    obtain ⟨htne, htws⟩ := h t (List.mem_cons_self _ _)
    have hhead : (joinSp (t :: rest)).head? = t.head? := by
      cases rest with
      | nil => rfl
      | cons u rest2 =>
        rw [joinSp_cons_cons, List.head?_append]
        cases t with
        | nil => exact absurd rfl htne
        | cons a t2 => rfl
    rw [hhead] at hc
    exact htws c (mem_of_head? hc)

theorem mem_of_getLast? {l : List Char} {c : Char} (h : l.getLast? = some c) : c ∈ l :=
  List.mem_of_getLast?_eq_some h

theorem getLast?_cons_ne {a : Char} {y : List Char} (h : y ≠ []) :
    (a :: y).getLast? = y.getLast? := by
  cases y with
  | nil => exact absurd rfl h
  | cons b l => exact List.getLast?_cons_cons

theorem joinSp_concat (X : List (List Char)) (t : List Char) :
    joinSp (X ++ [t]) = if X = [] then t else joinSp X ++ ' ' :: t := by
  induction X with
  | nil => simp [joinSp]
  | cons u rest ih =>
    rw [if_neg (by simp)]
    cases rest with
    | nil => simp [joinSp]
    | cons w rest2 =>
      show joinSp (u :: ((w :: rest2) ++ [t])) =
        (u ++ ' ' :: joinSp (w :: rest2)) ++ ' ' :: t
      have h1 : joinSp (u :: ((w :: rest2) ++ [t])) =
          u ++ ' ' :: joinSp ((w :: rest2) ++ [t]) := rfl
      rw [h1, ih, if_neg (by simp)]
      simp

theorem joinSp_getLast_not_ws {X : List (List Char)}
    (h : ∀ t ∈ X, t ≠ [] ∧ ∀ c ∈ t, isWS c = false) :
    ∀ c, (joinSp X).getLast? = some c → isWS c = false := by
  intro c hc
  by_cases hX : X = []
  · subst hX; simp [joinSp] at hc
  · obtain ⟨t, ht⟩ : ∃ t, X.getLast? = some t := by
      cases hX2 : X.getLast? with
      | none => exact absurd (List.getLast?_eq_none_iff.mp hX2) hX
      | some a => exact ⟨a, rfl⟩
    have hdecomp : X.dropLast ++ [t] = X := List.dropLast_append_getLast? t ht
    have htmem : t ∈ X := List.mem_of_getLast?_eq_some ht
    obtain ⟨htne, htws⟩ := h t htmem
    rw [← hdecomp, joinSp_concat] at hc
    split at hc
    · exact htws c (mem_of_getLast? hc)
    · rw [List.getLast?_append, getLast?_cons_ne htne] at hc
      cases hj : t.getLast? with
      | none => exact absurd (List.getLast?_eq_none_iff.mp hj) htne
      | some a =>
        rw [hj] at hc
        have ha : a = c := by simpa using hc
        exact htws c (mem_of_getLast? (by rw [hj, ha]))

theorem splitWSAux_token : ∀ (t s acc : List Char), (∀ c ∈ t, isWS c = false) →
    splitWSAux (t ++ s) acc = splitWSAux s (t.reverse ++ acc) := by
  intro t
  induction t with
  | nil => intro s acc _; simp
  | cons c t2 ih =>
    intro s acc h
    have hc : isWS c = false := h c (List.mem_cons_self _ _)
    show splitWSAux (c :: (t2 ++ s)) acc = _
    simp only [splitWSAux, hc, Bool.false_eq_true, if_false]
    rw [ih s (c :: acc) (fun x hx => h x (List.mem_cons_of_mem _ hx))]
    simp

theorem splitWS_joinSp : ∀ (X : List (List Char)),
    (∀ t ∈ X, t ≠ [] ∧ ∀ c ∈ t, isWS c = false) → splitWS (joinSp X) = X := by
  intro X
  induction X with
  | nil => intro _; rfl
  | cons t rest ih =>
    intro h
    obtain ⟨htne, htws⟩ := h t (List.mem_cons_self _ _)
    cases rest with
    | nil =>
      show splitWSAux (joinSp [t]) [] = [t]
      have h1 : joinSp [t] = t ++ [] := by simp [joinSp]
      rw [h1, splitWSAux_token t [] [] htws]
      simp only [splitWSAux, List.append_nil]
      rw [if_neg (by simpa using htne)]
      simp
    | cons u rest2 =>
      rw [joinSp_cons_cons]
      show splitWSAux (t ++ ' ' :: joinSp (u :: rest2)) [] = t :: u :: rest2
      rw [splitWSAux_token t _ [] htws]
      show splitWSAux (' ' :: joinSp (u :: rest2)) (t.reverse ++ []) = _
      simp only [splitWSAux, show isWS ' ' = true from rfl, if_true, List.append_nil]
      rw [if_neg (by simpa using htne)]
      rw [List.reverse_reverse]
      rw [show splitWSAux (joinSp (u :: rest2)) [] = splitWS (joinSp (u :: rest2)) from rfl]
      rw [ih (fun x hx => h x (List.mem_cons_of_mem _ hx))]

theorem pyStrip_eq_self {l : List Char}
    (h1 : ∀ c, l.head? = some c → isWS c = false)
    (h2 : ∀ c, l.getLast? = some c → isWS c = false) : pyStrip l = l := by
  unfold pyStrip
  rw [show dropWS l = l from dropWS_eq_self_of_head h1]
  have h3 : l.reverse.dropWhile (fun c => isWS c) = l.reverse := by
    apply dropWS_eq_self_of_head
    intro c hc
    rw [List.head?_reverse] at hc
    exact h2 c hc
  rw [h3, List.reverse_reverse]

theorem dropWhile_all_append {p : Char → Bool} : ∀ (w y : List Char),
    (∀ c ∈ w, p c = true) → (w ++ y).dropWhile p = y.dropWhile p := by
  intro w
  induction w with
  | nil => intro y _; rfl
  | cons c w2 ih =>
    intro y h
    show (c :: (w2 ++ y)).dropWhile p = _
    rw [List.dropWhile_cons, if_pos (h c (List.mem_cons_self _ _))]
    exact ih y (fun x hx => h x (List.mem_cons_of_mem _ hx))

theorem takeWhile_all_stop {p : Char → Bool} : ∀ (x y : List Char),
    (∀ c ∈ x, p c = true) → (∀ c, y.head? = some c → p c = false) →
    (x ++ y).takeWhile p = x := by
  intro x
  induction x with
  | nil =>
    intro y _ hy
    cases y with
    | nil => rfl
    | cons c t =>
      show (c :: t).takeWhile p = []
      rw [List.takeWhile_cons, if_neg (by simp [hy c rfl])]
  | cons c x2 ih =>
    intro y h hy
    show (c :: (x2 ++ y)).takeWhile p = c :: x2
    rw [List.takeWhile_cons, if_pos (h c (List.mem_cons_self _ _))]
    rw [ih y (fun a ha => h a (List.mem_cons_of_mem _ ha)) hy]

theorem dropWhile_all {p : Char → Bool} (w : List Char) (h : ∀ c ∈ w, p c = true) :
    w.dropWhile p = [] := by
  have h2 := dropWhile_all_append w [] h
  simpa using h2

theorem pyStrip_pad {x : List Char} (w1 w2 : List Char)
    (hw1 : ∀ c ∈ w1, isWS c = true) (hw2 : ∀ c ∈ w2, isWS c = true)
    (hh : ∀ c, x.head? = some c → isWS c = false)
    (hl : ∀ c, x.getLast? = some c → isWS c = false) :
    pyStrip (w1 ++ x ++ w2) = x := by
  by_cases hx : x = []
  · subst hx
    unfold pyStrip dropWS
    rw [List.append_nil, dropWhile_all_append w1 w2 hw1, dropWhile_all w2 hw2]
    rfl
  · obtain ⟨a, t, rfl⟩ : ∃ a t, x = a :: t := by
      cases x with
      | nil => exact absurd rfl hx
      | cons a t => exact ⟨a, t, rfl⟩
    unfold pyStrip
    have hd : dropWS (w1 ++ (a :: t) ++ w2) = (a :: t) ++ w2 := by
      unfold dropWS
      rw [List.append_assoc, dropWhile_all_append w1 _ hw1]
      show ((a :: (t ++ w2)).dropWhile _) = a :: t ++ w2
      rw [List.dropWhile_cons, if_neg (by simp [hh a rfl])]
      rfl
    rw [hd, List.reverse_append,
      dropWhile_all_append w2.reverse _
        (fun c hc => hw2 c (List.mem_reverse.mp hc))]
    have h3 : ((a :: t).reverse).dropWhile (fun c => isWS c) = (a :: t).reverse := by
      refine dropWS_eq_self_of_head ?_
      intro c hc
      rw [List.head?_reverse] at hc
      exact hl c hc
    rw [h3, List.reverse_reverse]

theorem canonForm_decomp : ∀ (ts : List (List Char)) (v : List Char)
    (us : List (List Char)),
    canonForm ts v us =
      (if ts = [] then [] else joinSp ts ++ [' ']) ++
        '/' :: (v ++ '/' :: (if us = [] then [] else ' ' :: joinSp us)) := by
  intro ts v us
  unfold canonForm
  induction ts with
  | nil =>
    rw [if_pos rfl]
    simp only [List.nil_append]
    cases us with
    | nil =>
      show joinSp [['/'] ++ v ++ ['/']] = _
      simp [joinSp]
    | cons u us2 =>
      rw [joinSp_cons_cons, if_neg (by simp)]
      simp
  | cons t ts2 ih =>
    rw [if_neg (by simp)]
    have h3 : joinSp ((t :: ts2) ++ (['/'] ++ v ++ ['/']) :: us) =
        t ++ ' ' :: joinSp (ts2 ++ (['/'] ++ v ++ ['/']) :: us) := by
      cases hL : ts2 ++ (['/'] ++ v ++ ['/']) :: us with
      | nil => simp at hL
      | cons w L2 =>
        show joinSp (t :: (ts2 ++ (['/'] ++ v ++ ['/']) :: us)) = _
        rw [hL]
        rfl
    rw [h3, ih]
    cases ts2 with
    | nil =>
      rw [if_pos rfl]
      show t ++ ' ' :: ([] ++ _) = joinSp [t] ++ [' '] ++ _
      simp [joinSp]
    | cons t2 ts3 =>
      rw [if_neg (by simp), joinSp_cons_cons]
      simp

theorem token_eq : ∀ (t g : List Char) (r rest : List Char) (c : Char),
    (∀ x ∈ t, isWS x = false) → (∀ x ∈ g, isWS x = false) → isWS c = true →
    t ++ ' ' :: r = g ++ c :: rest → g = t ∧ c = ' ' ∧ rest = r := by
  intro t
  induction t with
  | nil =>
    intro g r rest c _ hg hc heq
    cases g with
    | nil =>
      simp only [List.nil_append] at heq
      injection heq with h1 h2
      exact ⟨rfl, h1.symm, h2.symm⟩
    | cons x g2 =>
      simp only [List.nil_append, List.cons_append] at heq
      injection heq with h1 h2
      exfalso
      have h3 := hg x (List.mem_cons_self _ _)
      rw [← h1] at h3
      exact absurd h3 (by decide)
  | cons a t2 ih =>
    intro g r rest c ht hg hc heq
    cases g with
    | nil =>
      simp only [List.nil_append, List.cons_append] at heq
      injection heq with h1 h2
      exfalso
      have h3 := ht a (List.mem_cons_self _ _)
      rw [h1, hc] at h3
      exact Bool.noConfusion h3
    | cons x g2 =>
      simp only [List.cons_append] at heq
      injection heq with h1 h2
      subst h1
      obtain ⟨hg2, hc2, hr2⟩ := ih g2 r rest c
        (fun y hy => ht y (List.mem_cons_of_mem _ hy))
        (fun y hy => hg y (List.mem_cons_of_mem _ hy)) hc h2
      exact ⟨by rw [hg2], hc2, hr2⟩

theorem toLower_ws_fix {c : Char} (h : isWS c = true) : c.toLower = c := by
  unfold isWS at h
  simp only [Bool.or_eq_true, beq_iff_eq] at h
  rcases h with ((((h|h)|h)|h)|h)|h <;> subst h <;> decide

theorem ws_toNat_lt {c : Char} (h : isWS c = true) : c.toNat < 65 := by
  unfold isWS at h
  simp only [Bool.or_eq_true, beq_iff_eq] at h
  rcases h with ((((h|h)|h)|h)|h)|h <;> subst h <;> decide

theorem ciOk_ws_free {g w : List Char} {d : Bool} (hci : ciOk g w d = true)
    (hw : ∀ c ∈ w, isWS c = false) : ∀ c ∈ g, isWS c = false := by
  intro c hcg
  cases hcw : isWS c with
  | false => rfl
  | true =>
    exfalso
    have hlow : c.toLower = c := toLower_ws_fix hcw
    have hnat : c.toNat < 65 := ws_toNat_lt hcw
    have hcmem : c ∈ lowerStr g := by
      have h2 := List.mem_map_of_mem Char.toLower hcg
      rw [hlow] at h2
      exact h2
    have hfromw : ∀ y ∈ w, y.toLower = c → False := by
      intro y hy hye
      have hyc : y = c := (toLower_eq_low hnat y).mp hye
      subst hyc
      rw [hw y hy] at hcw
      exact Bool.noConfusion hcw
    rcases ciOk_iff.mp hci with h2 | ⟨-, h2⟩
    · rw [h2] at hcmem
      obtain ⟨y, hy, hye⟩ := List.mem_map.mp hcmem
      exact hfromw y hy hye
    · rw [h2, lowerStr_append] at hcmem
      rcases List.mem_append.mp hcmem with h3 | h3
      · obtain ⟨y, hy, hye⟩ := List.mem_map.mp h3
        exact hfromw y hy hye
      · have h4 : c = '.' := by
          have h5 : c = Char.toLower '.' := by
            simpa [lowerStr] using h3
          rw [h5]
          decide
        subst h4
        exact absurd hcw (by decide)

theorem getLast?_append_ne {x y : List Char} (h : y ≠ []) :
    (x ++ y).getLast? = y.getLast? := by
  rw [List.getLast?_append]
  cases hy : y.getLast? with
  | none => exact absurd (List.getLast?_eq_none_iff.mp hy) h
  | some a => rfl

theorem firstTry_none_no_ws {alts : List (List Char × Bool)} {W : List Char}
    (h : ∀ c ∈ W, isWS c = false) : firstTry alts W = none := by
  cases hm : firstTry alts W with
  | none => rfl
  | some p =>
    obtain ⟨g, r⟩ := p
    obtain ⟨wd, hmem, htw⟩ := firstTry_eq_some alts W (g, r) hm
    obtain ⟨c, rest, hshape, hws, -, -⟩ := tryWord_shape htw
    exfalso
    have hcm : c ∈ W := by
      rw [hshape]
      exact List.mem_append.mpr (Or.inr (List.mem_cons_self _ _))
    rw [h c hcm] at hws
    exact Bool.noConfusion hws

theorem firstTry_pos {alts : List (List Char × Bool)} {W : List Char}
    {p0 : List Char × List Char}
    (hex : ∃ wd ∈ alts, tryWord wd.1 wd.2 W = some p0)
    (huniq : ∀ wd ∈ alts, ∀ p, tryWord wd.1 wd.2 W = some p → p = p0) :
    firstTry alts W = some p0 := by
  induction alts with
  | nil => obtain ⟨wd, hm, -⟩ := hex; simp at hm
  | cons a rest ih =>
    obtain ⟨w, d⟩ := a
    unfold firstTry
    cases ht : tryWord w d W with
    | some q =>
      rw [huniq (w, d) (List.mem_cons_self _ _) q ht]
    | none =>
      apply ih
      · obtain ⟨wd, hm, he⟩ := hex
        rcases List.mem_cons.mp hm with h1 | h1
        · subst h1; rw [ht] at he; exact absurd he (by simp)
        · exact ⟨wd, h1, he⟩
      · intro wd hm p hp
        exact huniq wd (List.mem_cons_of_mem _ hm) p hp

theorem firstTry_neg {alts : List (List Char × Bool)} {W : List Char}
    (h : ∀ wd ∈ alts, ∀ p, tryWord wd.1 wd.2 W = some p → False) :
    firstTry alts W = none := by
  induction alts with
  | nil => rfl
  | cons a rest ih =>
    obtain ⟨w, d⟩ := a
    unfold firstTry
    cases ht : tryWord w d W with
    | some q => exact (h (w, d) (List.mem_cons_self _ _) q ht).elim
    | none => exact ih (fun wd hm p hp => h wd (List.mem_cons_of_mem _ hm) p hp)

theorem prefixAlts_ws : ∀ wd ∈ prefixAlts, ∀ c ∈ wd.1, isWS c = false := by decide

theorem titleAlts_ws : ∀ wd ∈ titleAlts, ∀ c ∈ wd.1, isWS c = false := by decide

theorem firstTry_token_some {alts : List (List Char × Bool)} {t r g q : List Char}
    (halts : ∀ wd ∈ alts, ∀ c ∈ wd.1, isWS c = false)
    (ht : ∀ x ∈ t, isWS x = false)
    (h : firstTry alts (t ++ ' ' :: r) = some (g, q)) :
    g = t ∧ q = dropWS (' ' :: r) ∧ ∃ wd ∈ alts, ciOk t wd.1 wd.2 = true := by
  obtain ⟨wd, hmem, htw⟩ := firstTry_eq_some alts _ (g, q) h
  obtain ⟨c, rest, hshape, hws, hr, hci⟩ := tryWord_shape htw
  have hgws := ciOk_ws_free hci (halts wd hmem)
  obtain ⟨hg, hc, hrest⟩ := token_eq t g r rest c ht hgws hws hshape
  subst hg
  refine ⟨rfl, ?_, ⟨wd, hmem, hci⟩⟩
  rw [hr, hc, hrest]

theorem prefixTok_of_ciOk {t : List Char}
    (hex : ∃ wd ∈ prefixAlts, ciOk t wd.1 wd.2 = true) : isPrefixTok t = true := by
  unfold isPrefixTok
  rw [List.any_eq_true]
  exact hex

theorem prefixMatch_token_none {t r : List Char} (ht : ∀ x ∈ t, isWS x = false)
    (hnp : isPrefixTok t = false) : prefixMatch (t ++ ' ' :: r) = none := by
  cases hm : prefixMatch (t ++ ' ' :: r) with
  | none => rfl
  | some p =>
    obtain ⟨g, q⟩ := p
    obtain ⟨-, -, hex⟩ := firstTry_token_some prefixAlts_ws ht hm
    rw [prefixTok_of_ciOk hex] at hnp
    exact Bool.noConfusion hnp

theorem prefixMatch_token_pos {t r : List Char} (ht : ∀ x ∈ t, isWS x = false)
    (hp : isPrefixTok t = true) :
    prefixMatch (t ++ ' ' :: r) = some (t, dropWS (' ' :: r)) := by
  unfold isPrefixTok at hp
  rw [List.any_eq_true] at hp
  obtain ⟨wd, hmem, hci⟩ := hp
  apply firstTry_pos
  · exact ⟨wd, hmem, tryWord_construct hci (by decide)⟩
  · intro wd2 hm2 p hp2
    obtain ⟨g, q⟩ := p
    obtain ⟨c, rest, hshape, hws, hr, hci2⟩ := tryWord_shape hp2
    have hgws := ciOk_ws_free hci2 (prefixAlts_ws wd2 hm2)
    obtain ⟨hg, hc, hrest⟩ := token_eq t g r rest c ht hgws hws hshape
    subst hg
    rw [hr, hc, hrest]

theorem titleMatch_token_none {t r : List Char} (ht : ∀ x ∈ t, isWS x = false)
    (hnp : isPrefixTok t = false) (hnd : isTitleOnlyTok t = false) :
    titleMatch (t ++ ' ' :: r) = none := by
  cases hm : titleMatch (t ++ ' ' :: r) with
  | none => rfl
  | some p =>
    obtain ⟨g, q⟩ := p
    obtain ⟨-, -, hex⟩ := firstTry_token_some titleAlts_ws ht hm
    obtain ⟨wd, hmem, hci⟩ := hex
    exfalso
    simp only [titleAlts, List.mem_cons, List.not_mem_nil, or_false] at hmem
    have hdoc : ∀ w0 : List Char, wd = (w0, false) →
        lowerStr w0 = chars "doctor" ∨ lowerStr w0 = chars "professor" → False := by
      intro w0 hwd hwl
      subst hwd
      rcases ciOk_iff.mp hci with h2 | ⟨h2, -⟩
      · have h3 : isTitleOnlyTok t = true := by
          unfold isTitleOnlyTok
          rcases hwl with hwl | hwl
          · rw [show lowerStr t = chars "doctor" by rw [h2, hwl]]
            simp
          · rw [show lowerStr t = chars "professor" by rw [h2, hwl]]
            simp
        rw [h3] at hnd
        exact Bool.noConfusion hnd
      · exact Bool.noConfusion h2
    have hpre : wd ∈ prefixAlts → False := by
      intro hm2
      rw [prefixTok_of_ciOk ⟨wd, hm2, hci⟩] at hnp
      exact Bool.noConfusion hnp
    rcases hmem with h1|h1|h1|h1|h1|h1|h1|h1|h1|h1
    · exact hpre (by rw [h1]; decide)
    · exact hdoc (chars "Doctor") h1 (Or.inl (by decide))
    · exact hpre (by rw [h1]; decide)
    · exact hdoc (chars "Professor") h1 (Or.inr (by decide))
    · exact hpre (by rw [h1]; decide)
    · exact hpre (by rw [h1]; decide)
    · exact hpre (by rw [h1]; decide)
    · exact hpre (by rw [h1]; decide)
    · exact hpre (by rw [h1]; decide)
    · exact hpre (by rw [h1]; decide)

theorem searchSpan_none_no_d (d : Char) (l : List Char) (h : d ∉ l) :
    searchSpan d l = none :=
  searchSpanAux_none_no_d d l h

theorem subSpan_none_no_d (d : Char) (l : List Char) (h : d ∉ l) :
    subSpan d l = l :=
  subSpanAux_none_no_d d l h

theorem head?_append_left {x y : List Char} (h : x ≠ []) :
    (x ++ y).head? = x.head? := by
  cases x with
  | nil => exact absurd rfl h
  | cons a t => rfl

theorem joinSp_ne_nil {X : List (List Char)} (hX : X ≠ [])
    (h : ∀ t ∈ X, t ≠ []) : joinSp X ≠ [] := by
  cases X with
  | nil => exact absurd rfl hX
  | cons t rest =>
    cases rest with
    | nil => exact h t (List.mem_cons_self _ _)
    | cons u r2 =>
      rw [joinSp_cons_cons]
      intro he
      simp at he

theorem joinSp_head?_first {t : List Char} {rest : List (List Char)} (h : t ≠ []) :
    (joinSp (t :: rest)).head? = t.head? := by
  cases rest with
  | nil => rfl
  | cons u r2 =>
    rw [joinSp_cons_cons]
    exact head?_append_left h

theorem joinSp_getLast?_last {X : List (List Char)} {t : List Char} (h : t ≠ []) :
    (joinSp (X ++ [t])).getLast? = t.getLast? := by
  rw [joinSp_concat]
  split
  · rfl
  · rw [getLast?_append_ne (by simp)]
    exact getLast?_cons_ne h

theorem cleanTok_facts {t : List Char} (h : cleanTok t) :
    t ≠ [] ∧ ∀ c ∈ t, isWS c = false :=
  ⟨h.1, fun c hc => (h.2 c hc).1⟩

theorem pyStrip_of_no_ws {t : List Char} (h : ∀ c ∈ t, isWS c = false) :
    pyStrip t = t :=
  pyStrip_eq_self (fun c hc => h c (mem_of_head? hc))
    (fun c hc => h c (mem_of_getLast? hc))

theorem pyStrip_joinSp_clean {X : List (List Char)}
    (h : ∀ t ∈ X, t ≠ [] ∧ ∀ c ∈ t, isWS c = false) :
    pyStrip (joinSp X) = joinSp X :=
  pyStrip_eq_self (joinSp_head_not_ws h) (joinSp_getLast_not_ws h)

theorem dropWS_cons_ws {c : Char} (hc : isWS c = true) (r : List Char) :
    dropWS (c :: r) = dropWS r := by
  unfold dropWS
  rw [List.dropWhile_cons, if_pos hc]

theorem suffixSearch_no_ws {s : List Char} (h : ∀ c ∈ s, isWS c = false) :
    suffixSearch s = none := by
  have hbody : sufBody s = s := by
    unfold sufBody
    rw [if_neg]
    intro he
    have h2 := h '\n' (mem_of_getLast? he)
    exact absurd h2 (by decide)
  have htok : sufTokRev s = s.reverse := by
    unfold sufTokRev
    rw [hbody]
    have h2 : ∀ c ∈ s.reverse, (fun c => !isWS c) c = true := by
      intro c hc
      simp [h c (List.mem_reverse.mp hc)]
    have h3 := takeWhile_all_stop s.reverse [] h2 (by intro c hc; simp at hc)
    simpa using h3
  have hafter : sufAfterTok s = [] := by
    unfold sufAfterTok
    rw [hbody, htok]
    exact List.drop_length _
  have hws : sufWsRun s = [] := by
    unfold sufWsRun
    rw [hafter]
    rfl
  unfold suffixSearch
  rw [if_neg]
  intro hcond
  exact hcond.2.1 hws

theorem suffixSearch_shape {A wsr u : List Char}
    (hwne : wsr ≠ []) (hw : ∀ c ∈ wsr, isWS c = true)
    (hune : u ≠ []) (hu : ∀ c ∈ u, isWS c = false)
    (hA : ∀ c, A.getLast? = some c → isWS c = false) :
    suffixSearch (A ++ wsr ++ u) =
      if isSuffixTok u then some (u, pyStrip A) else none := by
  have hwr : wsr.reverse ≠ [] := by simpa using hwne
  have hlastu : (A ++ wsr ++ u).getLast? = u.getLast? := by
    rw [List.append_assoc, getLast?_append_ne (by simp [hune]), getLast?_append_ne hune]
  have hbody : sufBody (A ++ wsr ++ u) = A ++ wsr ++ u := by
    unfold sufBody
    rw [if_neg]
    intro he
    rw [hlastu] at he
    have h2 := hu '\n' (mem_of_getLast? he)
    exact absurd h2 (by decide)
  have hrev : (A ++ wsr ++ u).reverse = u.reverse ++ (wsr.reverse ++ A.reverse) := by
    rw [List.reverse_append, List.reverse_append]
  obtain ⟨w0, wr2, hwsplit⟩ : ∃ w0 wr2, wsr.reverse = w0 :: wr2 := by
    cases hc : wsr.reverse with
    | nil => exact absurd hc hwr
    | cons a b => exact ⟨a, b, rfl⟩
  have htok : sufTokRev (A ++ wsr ++ u) = u.reverse := by
    unfold sufTokRev
    rw [hbody, hrev]
    apply takeWhile_all_stop
    · intro c hc
      simp [hu c (List.mem_reverse.mp hc)]
    · intro c hc
      rw [hwsplit] at hc
      simp only [List.cons_append, List.head?_cons, Option.some.injEq] at hc
      have hm : w0 ∈ wsr := List.mem_reverse.mp (by rw [hwsplit]; exact List.mem_cons_self _ _)
      rw [← hc]
      simp [hw w0 hm]
  have hafter : sufAfterTok (A ++ wsr ++ u) = wsr.reverse ++ A.reverse := by
    unfold sufAfterTok
    rw [hbody, htok, hrev]
    exact List.drop_left _ _
  have hwsrun : sufWsRun (A ++ wsr ++ u) = wsr.reverse := by
    unfold sufWsRun
    rw [hafter]
    apply takeWhile_all_stop
    · intro c hc
      exact hw c (List.mem_reverse.mp hc)
    · intro c hc
      rw [List.head?_reverse] at hc
      exact hA c hc
  have hdrop : (wsr.reverse ++ A.reverse).drop wsr.reverse.length = A.reverse :=
    List.drop_left _ _
  unfold suffixSearch
  rw [htok, hwsrun, hafter, hdrop, List.reverse_reverse, List.reverse_reverse]
  by_cases hsuf : isSuffixTok u = true
  · rw [if_pos ⟨by simpa using hune, hwr, hsuf⟩, if_pos hsuf]
  · rw [if_neg (fun hcond => hsuf hcond.2.2), if_neg hsuf]

theorem optPart_some_ne {t : List Char} (h : t ≠ []) : optPart (some t) = [t] := by
  show (if t = [] then [] else [t] : List (List Char)) = [t]
  rw [if_neg h]

theorem format_explicit (s0 : List Char) (G : List (List Char)) (v : List Char)
    (po so : Option (List Char)) (hv : v ≠ []) :
    format_gedcom_name ⟨s0, G, v, po, so, none, none⟩ =
      joinSp (optPart po ++ G ++ (['/'] ++ v ++ ['/']) :: optPart so) := by
  unfold format_gedcom_name
  dsimp only
  rw [if_pos hv]

theorem suffixSearch_joinSp_clean {X : List (List Char)}
    (h : ∀ t ∈ X, t ≠ [] ∧ ∀ c ∈ t, isWS c = false)
    (hlast : ∀ t, X.getLast? = some t → isSuffixTok t = false) :
    suffixSearch (joinSp X) = none := by
  cases hX : X.getLast? with
  | none =>
    rw [List.getLast?_eq_none_iff.mp hX]
    exact suffixSearch_no_ws (by simp [joinSp])
  | some t =>
    have hdecomp : X.dropLast ++ [t] = X := List.dropLast_append_getLast? t hX
    by_cases hXd : X.dropLast = []
    · have hX1 : X = [t] := by rw [← hdecomp, hXd]; rfl
      rw [hX1]
      apply suffixSearch_no_ws
      intro c hc
      exact (h t (by rw [hX1]; exact List.mem_cons_self _ _)).2 c (show c ∈ t from hc)
    · have hjoin : joinSp X = joinSp X.dropLast ++ [' '] ++ t := by
        rw [← hdecomp, joinSp_concat, if_neg hXd]
        simp
      rw [hjoin]
      rw [suffixSearch_shape (by simp) (by decide)
        (h t (List.mem_of_getLast?_eq_some hX)).1
        (fun c hc => (h t (List.mem_of_getLast?_eq_some hX)).2 c hc)
        (joinSp_getLast_not_ws (fun x hx => h x ((List.dropLast_sublist X).mem hx)))]
      rw [if_neg (by simp [hlast t hX])]

theorem canon_roundtrip (ts : List (List Char)) (v : List Char)
    (us : List (List Char))
    (h1 : ∀ t ∈ ts ++ us, cleanTok t)
    (h2 : v ≠ [] ∧ '/' ∉ v ∧ '"' ∉ v ∧ pyStrip v = v)
    (h3 : us = [] ∨ ∃ u, us = [u] ∧ isSuffixTok u = true)
    (h4 : us = [] → ∀ t, ts.getLast? = some t → isSuffixTok t = false)
    (h5 : ∀ a b r, ts = a :: b :: r → isTitleOnlyTok a = false)
    (h6 : us ≠ [] → ts ≠ [])
    (h7 : ∀ t u, ts = [t] → us = [u] → isPrefixTok t = false) :
    format_gedcom_name_from_string (canonForm ts v us) = canonForm ts v us := by
  obtain ⟨hvne, hvs, hvq, hvstrip⟩ := h2
  have hts : ∀ t ∈ ts, t ≠ [] ∧ ∀ c ∈ t, isWS c = false := fun t ht =>
    cleanTok_facts (h1 t (List.mem_append.mpr (Or.inl ht)))
  have hus : ∀ t ∈ us, t ≠ [] ∧ ∀ c ∈ t, isWS c = false := fun t ht =>
    cleanTok_facts (h1 t (List.mem_append.mpr (Or.inr ht)))
  have htss : ∀ t ∈ ts, '/' ∉ t := fun t ht hm =>
    ((h1 t (List.mem_append.mpr (Or.inl ht))).2 _ hm).2.1 rfl
  have huss : ∀ t ∈ us, '/' ∉ t := fun t ht hm =>
    ((h1 t (List.mem_append.mpr (Or.inr ht))).2 _ hm).2.1 rfl
  have htsq : ∀ t ∈ ts, '"' ∉ t := fun t ht hm =>
    ((h1 t (List.mem_append.mpr (Or.inl ht))).2 _ hm).2.2 rfl
  have husq : ∀ t ∈ us, '"' ∉ t := fun t ht hm =>
    ((h1 t (List.mem_append.mpr (Or.inr ht))).2 _ hm).2.2 rfl
  have hq : '"' ∉ canonForm ts v us := by
    unfold canonForm
    apply not_mem_joinSp (by decide)
    intro t ht
    rcases List.mem_append.mp ht with h | h
    · exact htsq t h
    · rcases List.mem_cons.mp h with h | h
      · subst h
        intro hm
        rcases List.mem_append.mp hm with hm | hm
        · rcases List.mem_append.mp hm with hm | hm
          · exact absurd hm (by decide)
          · exact hvq hm
        · exact absurd hm (by decide)
      · exact husq t h
  have hPs : '/' ∉ (if ts = [] then ([] : List Char) else joinSp ts ++ [' ']) := by
    split
    · simp
    · intro hm
      rcases List.mem_append.mp hm with hm | hm
      · exact not_mem_joinSp (by decide) htss hm
      · exact absurd hm (by decide)
  have hSs : '/' ∉ (if us = [] then ([] : List Char) else ' ' :: joinSp us) := by
    split
    · simp
    · intro hm
      rcases List.mem_cons.mp hm with hm | hm
      · exact absurd hm (by decide)
      · exact not_mem_joinSp (by decide) huss hm
  have hdecomp := canonForm_decomp ts v us
  have hhead : ∀ c, (canonForm ts v us).head? = some c → isWS c = false := by
    intro c hc
    unfold canonForm at hc
    cases ts with
    | nil =>
      rw [List.nil_append, joinSp_head?_first (by simp)] at hc
      simp only [List.append_assoc, List.singleton_append, List.cons_append,
        List.head?_cons, Option.some.injEq] at hc
      subst hc
      decide
    | cons t1 tr =>
      rw [List.cons_append, joinSp_head?_first (hts t1 (List.mem_cons_self _ _)).1] at hc
      exact (hts t1 (List.mem_cons_self _ _)).2 c (mem_of_head? hc)
  have hlast : ∀ c, (canonForm ts v us).getLast? = some c → isWS c = false := by
    intro c hc
    unfold canonForm at hc
    rcases h3 with h3a | ⟨u, hu3, -⟩
    · subst h3a
      rw [joinSp_getLast?_last (by simp)] at hc
      rw [getLast?_append_ne (by simp)] at hc
      simp only [List.getLast?_singleton, Option.some.injEq] at hc
      subst hc
      decide
    · subst hu3
      have heq : ts ++ (['/'] ++ v ++ ['/']) :: [u] =
          (ts ++ [['/'] ++ v ++ ['/']]) ++ [u] := by simp
      rw [heq, joinSp_getLast?_last (hus u (List.mem_cons_self _ _)).1] at hc
      exact (hus u (List.mem_cons_self _ _)).2 c (mem_of_getLast? hc)
  have hcne : canonForm ts v us ≠ [] := by
    rw [hdecomp]
    intro he
    simp at he
  have hs0 : stage0 (canonForm ts v us) = canonForm ts v us :=
    pyStrip_eq_self hhead hlast
  have hnickN : searchSpan '"' (stage0 (canonForm ts v us)) = none := by
    rw [hs0]
    exact searchSpan_none_no_d '"' _ hq
  have hnickO : nickOf (canonForm ts v us) = none := hnickN
  have hAN : afterNick (canonForm ts v us) = canonForm ts v us := by
    unfold afterNick
    rw [hnickN, hs0]
  have hsspan : searchSpan '/' (afterNick (canonForm ts v us)) = some v := by
    rw [hAN, hdecomp]
    exact searchSpan_span '/' _ v _ hPs hvs hvne
  have hsubsp : subSpan '/' (afterNick (canonForm ts v us)) =
      (if ts = [] then [] else joinSp ts ++ [' ']) ++
        (if us = [] then [] else ' ' :: joinSp us) := by
    rw [hAN, hdecomp, subSpan_span '/' _ v _ hPs hvs hvne,
      subSpan_none_no_d '/' _ hSs]
  have hsurv : surOf (canonForm ts v us) = v := by
    unfold surOf
    rw [hsspan]
    exact hvstrip
  have hASur : afterSur (canonForm ts v us) =
      pyStrip ((if ts = [] then [] else joinSp ts ++ [' ']) ++
        (if us = [] then [] else ' ' :: joinSp us)) := by
    unfold afterSur
    rw [hsspan]
    show pyStrip (subSpan '/' (afterNick (canonForm ts v us))) = _
    rw [hsubsp]
  show format_gedcom_name (parse_genealogy_name (canonForm ts v us)) = canonForm ts v us
  rcases h3 with husnil | ⟨u, husu, hsufu⟩
  · subst husnil
    rw [if_pos rfl, List.append_nil] at hASur
    cases ts with
    | nil =>
      rw [if_pos rfl] at hASur
      have hAS0 : afterSur (canonForm [] v []) = [] := by
        rw [hASur]; rfl
      have hpm : prefixMatch (afterSur (canonForm [] v [])) = none := by
        rw [hAS0]
        exact firstTry_none_no_ws (by simp)
      have hpref : prefOf (canonForm [] v []) = none := by
        unfold prefOf; rw [hpm]; rfl
      have hAP : afterPref (canonForm [] v []) = [] := by
        rw [afterPref_of_none hpref]; exact hAS0
      have hss : suffixSearch (afterPref (canonForm [] v [])) = none := by
        rw [hAP]
        exact suffixSearch_no_ws (by simp)
      have hsufN : sufOf (canonForm [] v []) = none := by
        unfold sufOf; rw [hss]; rfl
      have hAS : afterSuf (canonForm [] v []) = [] := by
        unfold afterSuf; rw [hss]; exact hAP
      have htm : titleMatch (afterSuf (canonForm [] v [])) = none := by
        rw [hAS]
        exact firstTry_none_no_ws (by simp)
      have htitN : titleOf (canonForm [] v []) = none := by
        unfold titleOf; rw [hpref, htm]; rfl
      have hAT : afterTitle (canonForm [] v []) = [] := by
        unfold afterTitle; rw [hpref, htm]; exact hAS
      have hgs : givensAndSurname (canonForm [] v []) = ([], v) := by
        unfold givensAndSurname
        dsimp only
        rw [hAT, hsurv, if_neg (by rintro ⟨hv0, -, -⟩; exact hvne hv0)]
        rfl
      have hparse : parse_genealogy_name (canonForm [] v []) =
          ⟨canonForm [] v [], [], v, none, none, none, none⟩ := by
        unfold parse_genealogy_name
        rw [if_neg hcne, hs0, hgs, hpref, hsufN, hnickO, htitN]
      rw [hparse, format_explicit _ _ _ _ _ hvne]
      rfl
    | cons t1 tr =>
      obtain ⟨htne1, htws1⟩ := hts t1 (List.mem_cons_self _ _)
      cases tr with
      | nil =>
        rw [if_neg (by simp)] at hASur
        have hAS0 : afterSur (canonForm [t1] v []) = t1 := by
          rw [hASur]
          show pyStrip (t1 ++ [' ']) = t1
          have hpp := @pyStrip_pad t1 [] [' '] (by simp) (by decide)
            (fun c hc => htws1 c (mem_of_head? hc))
            (fun c hc => htws1 c (mem_of_getLast? hc))
          simpa using hpp
        have hpm : prefixMatch (afterSur (canonForm [t1] v [])) = none := by
          rw [hAS0]
          exact firstTry_none_no_ws htws1
        have hpref : prefOf (canonForm [t1] v []) = none := by
          unfold prefOf; rw [hpm]; rfl
        have hAP : afterPref (canonForm [t1] v []) = t1 := by
          rw [afterPref_of_none hpref]; exact hAS0
        have hss : suffixSearch (afterPref (canonForm [t1] v [])) = none := by
          rw [hAP]
          exact suffixSearch_no_ws htws1
        have hsufN : sufOf (canonForm [t1] v []) = none := by
          unfold sufOf; rw [hss]; rfl
        have hAS : afterSuf (canonForm [t1] v []) = t1 := by
          unfold afterSuf; rw [hss]; exact hAP
        have htm : titleMatch (afterSuf (canonForm [t1] v [])) = none := by
          rw [hAS]
          exact firstTry_none_no_ws htws1
        have htitN : titleOf (canonForm [t1] v []) = none := by
          unfold titleOf; rw [hpref, htm]; rfl
        have hAT : afterTitle (canonForm [t1] v []) = t1 := by
          unfold afterTitle; rw [hpref, htm]; exact hAS
        have hsw : splitWS t1 = [t1] :=
          splitWS_joinSp [t1] (fun x hx => by
            rw [List.mem_singleton.mp hx]; exact ⟨htne1, htws1⟩)
        have hgs : givensAndSurname (canonForm [t1] v []) = ([t1], v) := by
          unfold givensAndSurname
          dsimp only
          rw [hAT, hsurv, hsw, if_neg (by rintro ⟨hv0, -, -⟩; exact hvne hv0)]
        have hparse : parse_genealogy_name (canonForm [t1] v []) =
            ⟨canonForm [t1] v [], [t1], v, none, none, none, none⟩ := by
          unfold parse_genealogy_name
          rw [if_neg hcne, hs0, hgs, hpref, hsufN, hnickO, htitN]
        rw [hparse, format_explicit _ _ _ _ _ hvne]
        rfl
      | cons t2 tr2 =>
        have hts2 : ∀ x ∈ t2 :: tr2, x ≠ [] ∧ ∀ c ∈ x, isWS c = false :=
          fun x hx => hts x (List.mem_cons_of_mem _ hx)
        rw [if_neg (by simp)] at hASur
        have hAS0 : afterSur (canonForm (t1 :: t2 :: tr2) v []) =
            joinSp (t1 :: t2 :: tr2) := by
          rw [hASur]
          have hpp := @pyStrip_pad (joinSp (t1 :: t2 :: tr2)) [] [' ']
            (by simp) (by decide)
            (joinSp_head_not_ws hts) (joinSp_getLast_not_ws hts)
          simpa using hpp
        have hswAll : splitWS (joinSp (t1 :: t2 :: tr2)) = t1 :: t2 :: tr2 :=
          splitWS_joinSp _ hts
        have hsw2 : splitWS (joinSp (t2 :: tr2)) = t2 :: tr2 :=
          splitWS_joinSp _ hts2
        rcases (Bool.eq_false_or_eq_true (isPrefixTok t1)).symm with hp1 | hp1
        · have hpm : prefixMatch (afterSur (canonForm (t1 :: t2 :: tr2) v [])) = none := by
            rw [hAS0, joinSp_cons_cons]
            exact prefixMatch_token_none htws1 hp1
          have hpref : prefOf (canonForm (t1 :: t2 :: tr2) v []) = none := by
            unfold prefOf; rw [hpm]; rfl
          have hAP : afterPref (canonForm (t1 :: t2 :: tr2) v []) =
              joinSp (t1 :: t2 :: tr2) := by
            rw [afterPref_of_none hpref]; exact hAS0
          have hss : suffixSearch (afterPref (canonForm (t1 :: t2 :: tr2) v [])) = none := by
            rw [hAP]
            exact suffixSearch_joinSp_clean hts (fun x hx => h4 rfl x hx)
          have hsufN : sufOf (canonForm (t1 :: t2 :: tr2) v []) = none := by
            unfold sufOf; rw [hss]; rfl
          have hAS : afterSuf (canonForm (t1 :: t2 :: tr2) v []) =
              joinSp (t1 :: t2 :: tr2) := by
            unfold afterSuf; rw [hss]; exact hAP
          have htm : titleMatch (afterSuf (canonForm (t1 :: t2 :: tr2) v [])) = none := by
            rw [hAS, joinSp_cons_cons]
            exact titleMatch_token_none htws1 hp1 (h5 t1 t2 tr2 rfl)
          have htitN : titleOf (canonForm (t1 :: t2 :: tr2) v []) = none := by
            unfold titleOf; rw [hpref, htm]; rfl
          have hAT : afterTitle (canonForm (t1 :: t2 :: tr2) v []) =
              joinSp (t1 :: t2 :: tr2) := by
            unfold afterTitle; rw [hpref, htm]; exact hAS
          have hgs : givensAndSurname (canonForm (t1 :: t2 :: tr2) v []) =
              (t1 :: t2 :: tr2, v) := by
            unfold givensAndSurname
            dsimp only
            rw [hAT, hsurv, hswAll, if_neg (by rintro ⟨hv0, -, -⟩; exact hvne hv0)]
          have hparse : parse_genealogy_name (canonForm (t1 :: t2 :: tr2) v []) =
              ⟨canonForm (t1 :: t2 :: tr2) v [], t1 :: t2 :: tr2, v,
                none, none, none, none⟩ := by
            unfold parse_genealogy_name
            rw [if_neg hcne, hs0, hgs, hpref, hsufN, hnickO, htitN]
          rw [hparse, format_explicit _ _ _ _ _ hvne]
          rfl
        · have hJ2ne : joinSp (t2 :: tr2) ≠ [] :=
            joinSp_ne_nil (by simp) (fun x hx => (hts2 x hx).1)
          have hpm : prefixMatch (afterSur (canonForm (t1 :: t2 :: tr2) v [])) =
              some (t1, joinSp (t2 :: tr2)) := by
            rw [hAS0, joinSp_cons_cons, prefixMatch_token_pos htws1 hp1]
            have hdw : dropWS (' ' :: joinSp (t2 :: tr2)) = joinSp (t2 :: tr2) := by
              rw [dropWS_cons_ws (by decide)]
              exact dropWS_eq_self_of_head (joinSp_head_not_ws hts2)
            rw [hdw]
          have hpref : prefOf (canonForm (t1 :: t2 :: tr2) v []) = some t1 := by
            unfold prefOf; rw [hpm]; rfl
          have hAP : afterPref (canonForm (t1 :: t2 :: tr2) v []) =
              joinSp (t2 :: tr2) := by
            unfold afterPref
            rw [hpm]
            exact pyStrip_joinSp_clean hts2
          have hss : suffixSearch (afterPref (canonForm (t1 :: t2 :: tr2) v [])) = none := by
            rw [hAP]
            exact suffixSearch_joinSp_clean hts2 (fun x hx =>
              h4 rfl x (by rw [List.getLast?_cons_cons]; exact hx))
          have hsufN : sufOf (canonForm (t1 :: t2 :: tr2) v []) = none := by
            unfold sufOf; rw [hss]; rfl
          have hAS : afterSuf (canonForm (t1 :: t2 :: tr2) v []) =
              joinSp (t2 :: tr2) := by
            unfold afterSuf; rw [hss]; exact hAP
          have htitN : titleOf (canonForm (t1 :: t2 :: tr2) v []) = none := by
            unfold titleOf; rw [hpref]
          have hAT : afterTitle (canonForm (t1 :: t2 :: tr2) v []) =
              joinSp (t2 :: tr2) := by
            unfold afterTitle; rw [hpref]; exact hAS
          have hgs : givensAndSurname (canonForm (t1 :: t2 :: tr2) v []) =
              (t2 :: tr2, v) := by
            unfold givensAndSurname
            dsimp only
            rw [hAT, hsurv, hsw2, if_neg (by rintro ⟨hv0, -, -⟩; exact hvne hv0)]
          have hparse : parse_genealogy_name (canonForm (t1 :: t2 :: tr2) v []) =
              ⟨canonForm (t1 :: t2 :: tr2) v [], t2 :: tr2, v,
                some t1, none, none, none⟩ := by
            unfold parse_genealogy_name
            rw [if_neg hcne, hs0, hgs, hpref, hsufN, hnickO, htitN]
          rw [hparse, format_explicit _ _ _ _ _ hvne, optPart_some_ne htne1]
          rfl
  · subst husu
    obtain ⟨hune, huws⟩ := hus u (List.mem_cons_self _ _)
    rw [if_neg (show ¬([u] : List (List Char)) = [] by simp)] at hASur
    cases ts with
    | nil => exact absurd rfl (h6 (by simp))
    | cons t1 tr =>
      obtain ⟨htne1, htws1⟩ := hts t1 (List.mem_cons_self _ _)
      cases tr with
      | nil =>
        rw [if_neg (by simp)] at hASur
        have hAS0 : afterSur (canonForm [t1] v [u]) = t1 ++ [' ', ' '] ++ u := by
          rw [hASur]
          have heq : (joinSp [t1] ++ [' ']) ++ ' ' :: joinSp [u] =
              t1 ++ [' ', ' '] ++ u := by
            show (t1 ++ [' ']) ++ ' ' :: u = _
            simp
          rw [heq]
          refine pyStrip_eq_self ?_ ?_
          · intro c hc
            rw [head?_append_left (by simp [htne1]), head?_append_left htne1] at hc
            exact htws1 c (mem_of_head? hc)
          · intro c hc
            rw [getLast?_append_ne hune] at hc
            exact huws c (mem_of_getLast? hc)
        have hpm : prefixMatch (afterSur (canonForm [t1] v [u])) = none := by
          rw [hAS0]
          have heq2 : t1 ++ [' ', ' '] ++ u = t1 ++ ' ' :: (' ' :: u) := by simp
          rw [heq2]
          exact prefixMatch_token_none htws1 (h7 t1 u rfl rfl)
        have hpref : prefOf (canonForm [t1] v [u]) = none := by
          unfold prefOf; rw [hpm]; rfl
        have hAP : afterPref (canonForm [t1] v [u]) = t1 ++ [' ', ' '] ++ u := by
          rw [afterPref_of_none hpref]; exact hAS0
        have hss : suffixSearch (afterPref (canonForm [t1] v [u])) = some (u, t1) := by
          rw [hAP, suffixSearch_shape (by simp) (by decide) hune huws
            (fun x hx => htws1 x (mem_of_getLast? hx)), if_pos hsufu,
            pyStrip_of_no_ws htws1]
        have hsufS : sufOf (canonForm [t1] v [u]) = some u := by
          unfold sufOf; rw [hss]; rfl
        have hAS : afterSuf (canonForm [t1] v [u]) = t1 := by
          unfold afterSuf; rw [hss]
        have htm : titleMatch (afterSuf (canonForm [t1] v [u])) = none := by
          rw [hAS]
          exact firstTry_none_no_ws htws1
        have htitN : titleOf (canonForm [t1] v [u]) = none := by
          unfold titleOf; rw [hpref, htm]; rfl
        have hAT : afterTitle (canonForm [t1] v [u]) = t1 := by
          unfold afterTitle; rw [hpref, htm]; exact hAS
        have hsw : splitWS t1 = [t1] :=
          splitWS_joinSp [t1] (fun x hx => by
            rw [List.mem_singleton.mp hx]; exact ⟨htne1, htws1⟩)
        have hgs : givensAndSurname (canonForm [t1] v [u]) = ([t1], v) := by
          unfold givensAndSurname
          dsimp only
          rw [hAT, hsurv, hsw, if_neg (by rintro ⟨hv0, -, -⟩; exact hvne hv0)]
        have hparse : parse_genealogy_name (canonForm [t1] v [u]) =
            ⟨canonForm [t1] v [u], [t1], v, none, some u, none, none⟩ := by
          unfold parse_genealogy_name
          rw [if_neg hcne, hs0, hgs, hpref, hsufS, hnickO, htitN]
        rw [hparse, format_explicit _ _ _ _ _ hvne, optPart_some_ne hune]
        rfl
      | cons t2 tr2 =>
        have hts2 : ∀ x ∈ t2 :: tr2, x ≠ [] ∧ ∀ c ∈ x, isWS c = false :=
          fun x hx => hts x (List.mem_cons_of_mem _ hx)
        have hJne : joinSp (t1 :: t2 :: tr2) ≠ [] :=
          joinSp_ne_nil (by simp) (fun x hx => (hts x hx).1)
        have hJ2ne : joinSp (t2 :: tr2) ≠ [] :=
          joinSp_ne_nil (by simp) (fun x hx => (hts2 x hx).1)
        rw [if_neg (by simp)] at hASur
        have hAS0 : afterSur (canonForm (t1 :: t2 :: tr2) v [u]) =
            joinSp (t1 :: t2 :: tr2) ++ [' ', ' '] ++ u := by
          rw [hASur]
          have heq : (joinSp (t1 :: t2 :: tr2) ++ [' ']) ++ ' ' :: joinSp [u] =
              joinSp (t1 :: t2 :: tr2) ++ [' ', ' '] ++ u := by
            show (joinSp (t1 :: t2 :: tr2) ++ [' ']) ++ ' ' :: u = _
            simp
          rw [heq]
          refine pyStrip_eq_self ?_ ?_
          · intro c hc
            rw [head?_append_left (by simp [hJne]), head?_append_left hJne] at hc
            exact joinSp_head_not_ws hts c hc
          · intro c hc
            rw [getLast?_append_ne hune] at hc
            exact huws c (mem_of_getLast? hc)
        rcases (Bool.eq_false_or_eq_true (isPrefixTok t1)).symm with hp1 | hp1
        · have hpm : prefixMatch (afterSur (canonForm (t1 :: t2 :: tr2) v [u])) = none := by
            rw [hAS0]
            have heq2 : joinSp (t1 :: t2 :: tr2) ++ [' ', ' '] ++ u =
                t1 ++ ' ' :: (joinSp (t2 :: tr2) ++ [' ', ' '] ++ u) := by
              rw [joinSp_cons_cons]
              simp
            rw [heq2]
            exact prefixMatch_token_none htws1 hp1
          have hpref : prefOf (canonForm (t1 :: t2 :: tr2) v [u]) = none := by
            unfold prefOf; rw [hpm]; rfl
          have hAP : afterPref (canonForm (t1 :: t2 :: tr2) v [u]) =
              joinSp (t1 :: t2 :: tr2) ++ [' ', ' '] ++ u := by
            rw [afterPref_of_none hpref]; exact hAS0
          have hss : suffixSearch (afterPref (canonForm (t1 :: t2 :: tr2) v [u])) =
              some (u, joinSp (t1 :: t2 :: tr2)) := by
            rw [hAP, suffixSearch_shape (by simp) (by decide) hune huws
              (joinSp_getLast_not_ws hts), if_pos hsufu,
              pyStrip_joinSp_clean hts]
          have hsufS : sufOf (canonForm (t1 :: t2 :: tr2) v [u]) = some u := by
            unfold sufOf; rw [hss]; rfl
          have hAS : afterSuf (canonForm (t1 :: t2 :: tr2) v [u]) =
              joinSp (t1 :: t2 :: tr2) := by
            unfold afterSuf; rw [hss]
          have htm : titleMatch (afterSuf (canonForm (t1 :: t2 :: tr2) v [u])) = none := by
            rw [hAS, joinSp_cons_cons]
            exact titleMatch_token_none htws1 hp1 (h5 t1 t2 tr2 rfl)
          have htitN : titleOf (canonForm (t1 :: t2 :: tr2) v [u]) = none := by
            unfold titleOf; rw [hpref, htm]; rfl
          have hAT : afterTitle (canonForm (t1 :: t2 :: tr2) v [u]) =
              joinSp (t1 :: t2 :: tr2) := by
            unfold afterTitle; rw [hpref, htm]; exact hAS
          have hswAll : splitWS (joinSp (t1 :: t2 :: tr2)) = t1 :: t2 :: tr2 :=
            splitWS_joinSp _ hts
          have hgs : givensAndSurname (canonForm (t1 :: t2 :: tr2) v [u]) =
              (t1 :: t2 :: tr2, v) := by
            unfold givensAndSurname
            dsimp only
            rw [hAT, hsurv, hswAll, if_neg (by rintro ⟨hv0, -, -⟩; exact hvne hv0)]
          have hparse : parse_genealogy_name (canonForm (t1 :: t2 :: tr2) v [u]) =
              ⟨canonForm (t1 :: t2 :: tr2) v [u], t1 :: t2 :: tr2, v,
                none, some u, none, none⟩ := by
            unfold parse_genealogy_name
            rw [if_neg hcne, hs0, hgs, hpref, hsufS, hnickO, htitN]
          rw [hparse, format_explicit _ _ _ _ _ hvne, optPart_some_ne hune]
          rfl
        · have hpm : prefixMatch (afterSur (canonForm (t1 :: t2 :: tr2) v [u])) =
              some (t1, joinSp (t2 :: tr2) ++ [' ', ' '] ++ u) := by
            rw [hAS0]
            have heq2 : joinSp (t1 :: t2 :: tr2) ++ [' ', ' '] ++ u =
                t1 ++ ' ' :: (joinSp (t2 :: tr2) ++ [' ', ' '] ++ u) := by
              rw [joinSp_cons_cons]
              simp
            rw [heq2, prefixMatch_token_pos htws1 hp1]
            have hdw : dropWS (' ' :: (joinSp (t2 :: tr2) ++ [' ', ' '] ++ u)) =
                joinSp (t2 :: tr2) ++ [' ', ' '] ++ u := by
              rw [dropWS_cons_ws (by decide)]
              apply dropWS_eq_self_of_head
              intro x hx
              rw [head?_append_left (by simp [hJ2ne]), head?_append_left hJ2ne] at hx
              exact joinSp_head_not_ws hts2 x hx
            rw [hdw]
          have hpref : prefOf (canonForm (t1 :: t2 :: tr2) v [u]) = some t1 := by
            unfold prefOf; rw [hpm]; rfl
          have hAP : afterPref (canonForm (t1 :: t2 :: tr2) v [u]) =
              joinSp (t2 :: tr2) ++ [' ', ' '] ++ u := by
            unfold afterPref
            rw [hpm]
            refine pyStrip_eq_self ?_ ?_
            · intro x hx
              rw [head?_append_left (by simp [hJ2ne]), head?_append_left hJ2ne] at hx
              exact joinSp_head_not_ws hts2 x hx
            · intro x hx
              rw [getLast?_append_ne hune] at hx
              exact huws x (mem_of_getLast? hx)
          have hss : suffixSearch (afterPref (canonForm (t1 :: t2 :: tr2) v [u])) =
              some (u, joinSp (t2 :: tr2)) := by
            rw [hAP, suffixSearch_shape (by simp) (by decide) hune huws
              (joinSp_getLast_not_ws hts2), if_pos hsufu,
              pyStrip_joinSp_clean hts2]
          have hsufS : sufOf (canonForm (t1 :: t2 :: tr2) v [u]) = some u := by
            unfold sufOf; rw [hss]; rfl
          have hAS : afterSuf (canonForm (t1 :: t2 :: tr2) v [u]) =
              joinSp (t2 :: tr2) := by
            unfold afterSuf; rw [hss]
          have htitN : titleOf (canonForm (t1 :: t2 :: tr2) v [u]) = none := by
            unfold titleOf; rw [hpref]
          have hAT : afterTitle (canonForm (t1 :: t2 :: tr2) v [u]) =
              joinSp (t2 :: tr2) := by
            unfold afterTitle; rw [hpref]; exact hAS
          have hsw2 : splitWS (joinSp (t2 :: tr2)) = t2 :: tr2 :=
            splitWS_joinSp _ hts2
          have hgs : givensAndSurname (canonForm (t1 :: t2 :: tr2) v [u]) =
              (t2 :: tr2, v) := by
            unfold givensAndSurname
            dsimp only
            rw [hAT, hsurv, hsw2, if_neg (by rintro ⟨hv0, -, -⟩; exact hvne hv0)]
          have hparse : parse_genealogy_name (canonForm (t1 :: t2 :: tr2) v [u]) =
              ⟨canonForm (t1 :: t2 :: tr2) v [u], t2 :: tr2, v,
                some t1, some u, none, none⟩ := by
            unfold parse_genealogy_name
            rw [if_neg hcne, hs0, hgs, hpref, hsufS, hnickO, htitN]
          rw [hparse, format_explicit _ _ _ _ _ hvne, optPart_some_ne htne1,
            optPart_some_ne hune]
          rfl

end GedcomMCP
